import Mathlib

/-!
Formal model of the TLBlur-SGX page-access profiler and libjpeg page-fault
attack driver. Shallow embedding of:
  - app/profiler/src/lib.rs     (PageAccess, PageTable)
  - app/profiler/src/tlblur.rs  (PAM, Set, HardwareTLB, Attacker, trap handler)
  - app/profiler/src/dump.rs    (VCDStatefulSet, VCDDumper)
  - app/libjpeg/attack/src/main.rs (JpegState, JpegReconstruct)
Machine integers (usize/u64) are modelled as Nat; operations that panic in
Rust (index out of bounds, arithmetic overflow with overflow checks,
modulo by zero, todo markers) are modelled as Option returning none.
External effects (enclave memory reads, PTE hardware state, registers) are
passed in as explicit inputs.
-/

/-- usize::MAX / u64::MAX on the 64-bit targets this repository builds for. -/
def usizeMAX : Nat := 2 ^ 64 - 1

/-! ## PageAccess (lib.rs) -/

/-- An access to a page with certain permissions (lib.rs, struct PageAccess). -/
structure PageAccess where
  read : Bool
  write : Bool
  execute : Bool
  page : Nat
deriving DecidableEq, Repr

/-- Derived Default: all fields false / zero. -/
def PageAccess.default : PageAccess :=
  { read := false, write := false, execute := false, page := 0 }

/-- PageAccess::covers (lib.rs): same page, and each permission bit set in
other is also set in self. -/
def PageAccess.covers (self other : PageAccess) : Bool :=
  if self.page = other.page then
    let result := true
    let result := if other.read && !self.read then false else result
    let result := if other.write && !self.write then false else result
    let result := if other.execute && !self.execute then false else result
    result
  else
    false

/-- PageAccess::union (lib.rs): bitwise OR of the permissions, keeping
self.page. -/
def PageAccess.union (self other : PageAccess) : PageAccess :=
  { read := self.read || other.read
    write := self.write || other.write
    execute := self.execute || other.execute
    page := self.page }

/-! ## JPEG attack state machine (libjpeg attack main.rs) -/

/-- JpegState (main.rs): states of the page-fault reconstruction machine. -/
inductive JpegState where
  | PreStart
  | Start
  | NextRow
  | StartRow
  | PreIdctSlow
  | StartIdctSlow
  | IdctSlow
  | DataCount (n : Nat)
deriving DecidableEq, Repr

/-- Half-open page range, as Rust Range of usize (start, end). -/
def rangeContains (r : Nat × Nat) (p : Nat) : Bool :=
  r.1 ≤ p && p < r.2

/-- JpegState::pages (main.rs): the page range of each state. StartIdctSlow
falls into the catch-all arm returning 0..0. -/
def JpegState.pages (s : JpegState) (has_aexnotify : Bool) : Nat × Nat :=
  match s with
  | .PreStart => (0, 0)
  | .Start => (54, 55)
  | .NextRow => (44, 46)
  | .StartRow => (58, 59)
  | .PreIdctSlow => (59, 60)
  | .IdctSlow => (63, 65)
  | .DataCount _ => if has_aexnotify then (150, 4335) else (150, 4340)
  | .StartIdctSlow => (0, 0)

/-- JpegState::next_states (main.rs). Building the successor vector computes
x + 1 on usize, which overflows (panics with overflow checks) when
x = usize::MAX; that is modelled as none. -/
def JpegState.next_states (s : JpegState) : Option (List JpegState) :=
  match s with
  | .PreStart => some [.Start]
  | .Start => some [.StartRow]
  | .NextRow => some [.StartRow]
  | .StartRow => some [.IdctSlow]
  | .PreIdctSlow => some [.IdctSlow, .NextRow]
  | .IdctSlow => some [.DataCount 1]
  | .DataCount x =>
    if x + 1 ≤ usizeMAX then some [.DataCount (x + 1), .PreIdctSlow, .NextRow]
    else none
  | .StartIdctSlow => some []

/-- JpegState::next (main.rs): first successor whose page range contains the
faulting page, otherwise stay. -/
def JpegState.next (s : JpegState) (page : Nat) (has_aexnotify : Bool) :
    Option JpegState :=
  (s.next_states).map fun states =>
    (states.find? fun t => rangeContains (t.pages has_aexnotify) page).getD s

/-- True exactly on DataCount states. -/
def JpegState.isDataCount : JpegState → Bool
  | .DataCount _ => true
  | _ => false

/-- JpegReconstruct (main.rs). The f64 fields scale and offset only feed the
bitmap rendering and are omitted; field order otherwise follows the source. -/
structure JpegReconstruct where
  current_color : Nat
  num_colors : Nat
  reconstructed_buffer : List (List (List Nat))
  max_data : Nat
  min_data : Nat
  current_row : Nat
deriving DecidableEq, Repr

/-- JpegReconstruct::new (main.rs): one empty row per color channel,
max_data = 1, min_data = usize::MAX. -/
def JpegReconstruct.new (num_colors : Nat) : JpegReconstruct :=
  { current_color := 0
    num_colors := num_colors
    reconstructed_buffer := List.replicate num_colors [[]]
    max_data := 1
    min_data := usizeMAX
    current_row := 0 }

/-- Push one empty row onto the first k color channels (the loop body of
JpegReconstruct::next_row). The caller guards k ≤ length, since the Rust
loop indexes buffer[i] for i < num_colors. -/
def pushEmptyRows : Nat → List (List (List Nat)) → List (List (List Nat))
  | 0, buf => buf
  | _ + 1, [] => []
  | k + 1, c :: rest => (c ++ [[]]) :: pushEmptyRows k rest

/-- JpegReconstruct::next_row (main.rs): append an empty row to every color
channel and increment current_row. Indexing beyond the buffer or usize
overflow of current_row panics in Rust, modelled as none. -/
def JpegReconstruct.next_row (r : JpegReconstruct) : Option JpegReconstruct :=
  if r.num_colors ≤ r.reconstructed_buffer.length ∧ r.current_row + 1 ≤ usizeMAX then
    some { r with
      reconstructed_buffer := pushEmptyRows r.num_colors r.reconstructed_buffer
      current_row := r.current_row + 1 }
  else
    none

/-- JpegReconstruct::reconstruct_block (main.rs): record num_data in the
current color and row, update min/max, advance the color modulo num_colors.
Out-of-range indexing and the modulo by num_colors = 0 panic in Rust,
modelled as none. The progress-bar increment is an external effect. -/
def JpegReconstruct.reconstruct_block (r : JpegReconstruct) (num_data : Nat) :
    Option JpegReconstruct := do
  let colorRows ← r.reconstructed_buffer[r.current_color]?
  let row ← colorRows[r.current_row]?
  if r.num_colors = 0 ∨ r.current_color + 1 > usizeMAX then
    none
  else
    some { r with
      max_data := Nat.max r.max_data num_data
      min_data := Nat.min r.min_data num_data
      reconstructed_buffer :=
        r.reconstructed_buffer.set r.current_color
          (colorRows.set r.current_row (row ++ [num_data]))
      current_color := (r.current_color + 1) % r.num_colors }

/-- JpegReconstruct::reconstruct (main.rs): on leaving a DataCount state,
commit the count as a block; on NextRow -> StartRow advance the row. -/
def JpegReconstruct.reconstruct (r : JpegReconstruct)
    (prev_state new_state : JpegState) : Option JpegReconstruct := do
  let r1 ←
    match prev_state with
    | .DataCount data_count =>
      if new_state.isDataCount then some r else r.reconstruct_block data_count
    | _ => some r
  if prev_state = JpegState.NextRow ∧ new_state = JpegState.StartRow then
    r1.next_row
  else
    some r1

/-- The block counts committed while replaying a fault on prev/new states:
the DataCount payload exactly when a DataCount state is left. -/
def commitOf (prev_state new_state : JpegState) : List Nat :=
  match prev_state with
  | .DataCount n => if new_state.isDataCount then [] else [n]
  | _ => []

/-- Replay a list of faulting pages through JpegState::next and
JpegReconstruct::reconstruct, as the fault handler and the VCD trace replay
both do. -/
def replayFrom (aex : Bool) :
    JpegState → JpegReconstruct → List Nat → Option (JpegState × JpegReconstruct)
  | s, r, [] => some (s, r)
  | s, r, page :: rest =>
    match s.next page aex with
    | none => none
    | some s2 =>
      match r.reconstruct s s2 with
      | none => none
      | some r2 => replayFrom aex s2 r2 rest

/-- The block counts committed along a replay (empty once a step panics). -/
def commitsFrom (aex : Bool) : JpegState → List Nat → List Nat
  | _, [] => []
  | s, page :: rest =>
    match s.next page aex with
    | none => []
    | some s2 => commitOf s s2 ++ commitsFrom aex s2 rest

/-- The S1 trace replayed with num_colors = 1 and aexnotify = false. -/
def s1Trace : List Nat := [54, 58, 63, 150, 151, 150, 59, 63, 150, 44, 58, 63, 150]

def s1Replay : Option (JpegState × JpegReconstruct) :=
  replayFrom false JpegState.PreStart (JpegReconstruct.new 1) s1Trace

/-! ## Claims C1 and C4: JPEG trace replay and AEX-Notify profile -/

/-- Claim C1, counterexample: replaying the S1 page-fault sequence does not
yield the reconstruction buffer [[[2, 1], [1]]] with min_data 1 and
max_data 2 that the claim states. -/
theorem s1_replay_counterexample :
    (s1Replay.map fun p =>
      (p.2.reconstructed_buffer, p.2.min_data, p.2.max_data)) ≠
      some ([[[2, 1], [1]]], 1, 2) := by
  decide

/-- Claim C1, amended: replaying the page-fault sequence
[54, 58, 63, 150, 151, 150, 59, 63, 150, 44, 58, 63, 150] through
JpegState::next (has_aexnotify = false, from PreStart) and feeding each
transition to JpegReconstruct::reconstruct with num_colors = 1 yields the
reconstruction buffer [[[3, 1], []]] with min_data = 1 and max_data = 3,
ending in state DataCount 1 (whose count is never committed, leaving the
second row empty). -/
theorem s1_replay :
    s1Replay = some (JpegState.DataCount 1,
      { current_color := 0
        num_colors := 1
        reconstructed_buffer := [[[3, 1], []]]
        max_data := 3
        min_data := 1
        current_row := 1 }) := by
  decide

/-- Claim C4, counterexample: with aexnotify = true a fault on page 4338 in
state DataCount(3) does not yield DataCount(4), and a fault on page 4336
does not yield PreIdctSlow (the DataCount range shrinks to [150, 4335) and
neither page matches any successor, so the machine stays in DataCount(3)). -/
theorem aexnotify_counterexample :
    JpegState.next (.DataCount 3) 4338 true ≠ some (.DataCount 4) ∧
    JpegState.next (.DataCount 3) 4336 true ≠ some (.PreIdctSlow) := by
  decide

/-- Claim C4, amended: with aexnotify = false, faults on pages 4338 and 4336
from DataCount(3) both yield DataCount(4); with aexnotify = true (DataCount
page range [150, 4335) instead of [150, 4340)), both faults match no
successor and the state stays DataCount(3). -/
theorem aexnotify_profile :
    JpegState.next (.DataCount 3) 4338 false = some (.DataCount 4) ∧
    JpegState.next (.DataCount 3) 4336 false = some (.DataCount 4) ∧
    JpegState.next (.DataCount 3) 4338 true = some (.DataCount 3) ∧
    JpegState.next (.DataCount 3) 4336 true = some (.DataCount 3) := by
  decide

/-! ## Page table shadow (lib.rs) -/

/-- The A/D/P bits of one page-table entry, read through the PageTableEntry
handle. -/
structure PTE where
  accessed : Bool
  dirty : Bool
  present : Bool
deriving DecidableEq, Repr

/-- PageTable (lib.rs): the PageTableEntry handles are modelled by the bit
values they currently read. -/
structure PageTable where
  page_table_map : List (Option PTE)
  pages : List PageAccess
  accessed_ptes : List (PageAccess × Nat)
deriving DecidableEq, Repr

/-- PageTable::clear_all_ad_bits (lib.rs): clear A and D on every live
entry. -/
def PageTable.clear_all_ad_bits (pt : PageTable) : PageTable :=
  { pt with
    page_table_map := pt.page_table_map.map fun opte =>
      opte.map fun pte => { pte with accessed := false, dirty := false } }

/-- PageTable::update_page_accesses (lib.rs): rebuild pages from every live,
present, accessed entry (read always true, write iff dirty, execute false);
accessed_ptes accumulates without being cleared. -/
def PageTable.update_page_accesses (pt : PageTable) : PageTable :=
  let new_pages := pt.page_table_map.enum.filterMap fun ip =>
    match ip.2 with
    | some pte =>
      if pte.accessed && pte.present then
        some { read := true, write := pte.dirty, execute := false, page := ip.1 }
      else
        none
    | none => none
  { pt with
    pages := new_pages
    accessed_ptes := pt.accessed_ptes ++ new_pages.map fun p => (p, p.page) }

/-- PageTable::get_all_accessed_pages (lib.rs). -/
def PageTable.get_all_accessed_pages (pt : PageTable) : List PageAccess :=
  pt.pages

/-- PageTable::get_accessed_pages (lib.rs). -/
def PageTable.get_accessed_pages (pt : PageTable) (filter : PageAccess → Bool) :
    List PageAccess :=
  pt.pages.filter filter

/-! ## Observation accumulator (tlblur.rs) -/

/-- PageTableObservations (tlblur.rs): a map page -> accumulated PageAccess.
The Rust HashMap has unspecified iteration order; the model keeps insertion
order. -/
structure PageTableObservations where
  state : List (Nat × PageAccess)
deriving DecidableEq, Repr

def PageTableObservations.clear (_ : PageTableObservations) :
    PageTableObservations :=
  { state := [] }

/-- One entry step of PageTableObservations::update: union-merge into an
existing key or insert. -/
def PageTableObservations.update1 (st : List (Nat × PageAccess))
    (p : PageAccess) : List (Nat × PageAccess) :=
  if st.any fun kv => kv.1 = p.page then
    st.map fun kv => if kv.1 = p.page then (kv.1, kv.2.union p) else kv
  else
    st ++ [(p.page, p)]

def PageTableObservations.update (obs : PageTableObservations)
    (pages : List PageAccess) : PageTableObservations :=
  { state := pages.foldl PageTableObservations.update1 obs.state }

/-- The values iterator of the observations map. -/
def PageTableObservations.values (obs : PageTableObservations) :
    List PageAccess :=
  obs.state.map fun kv => kv.2

/-! ## PAM mirror (tlblur.rs) -/

/-- PAM (tlblur.rs). The two EnclaveMemory handles are external; the values
they deliver are passed to update_pam as arguments. -/
structure PAM where
  pam_buffer : List Nat
  pam_active : List PageAccess
  pam_counter : Nat
deriving DecidableEq, Repr

/-- PAM::new (tlblur.rs): zeroed buffer, pws_size default-initialized active
entries, counter 0. -/
def PAM.new (pam_size pws_size : Nat) : PAM :=
  { pam_buffer := List.replicate pam_size 0
    pam_active := List.replicate pws_size PageAccess.default
    pam_counter := 0 }

/-- new_counter - 1 on u64: wraps to u64::MAX when the counter is 0 (the
release-profile behaviour; counters are read from 8 bytes so they are below
2^64). -/
def u64sub1 (c : Nat) : Nat :=
  if c = 0 then usizeMAX else c - 1

/-- The eviction key of one pam_active entry: page 0 counts as an empty slot
with key 0, otherwise the entry's current pam_buffer counter. The buffer
indexing panics in Rust when the page is out of range, modelled as none. -/
def pamEntryKey (buffer : List Nat) (p : PageAccess) : Option Nat :=
  if p.page = 0 then some 0 else buffer[p.page]?

/-- Scan for the first minimum: i is the index of the next key, bestIdx and
best the running first minimum. -/
def argminIdxAux (i bestIdx best : Nat) : List Nat → Nat
  | [] => bestIdx
  | k :: rest =>
    if k < best then argminIdxAux (i + 1) i k rest
    else argminIdxAux (i + 1) bestIdx best rest

/-- Index of the first minimum of a list of keys (Iterator::min_by_key
returns the first of equally minimal elements), none on an empty list. -/
def argminIdx : List Nat → Option Nat
  | [] => none
  | k :: rest => some (argminIdxAux 1 0 k rest)

/-- The body of the PAM::update_pam loop for one enumerated buffer entry
(page, value): if the entry was recently updated, latch the new counter and,
if the page is absent from pam_active, replace the entry with the smallest
eviction key (first on ties) by {page, r/w/x}. -/
def PAM.update_entry (st : PAM) (page value new_counter : Nat) : Option PAM :=
  if value ≥ u64sub1 new_counter ∧ value > 0 then
    let st := { st with pam_counter := new_counter }
    if (st.pam_active.find? fun p => p.page = page).isNone then
      match st.pam_active.mapM (pamEntryKey st.pam_buffer) with
      | none => none
      | some keys =>
        match argminIdx keys with
        | some index =>
          some { st with
            pam_active := st.pam_active.set index
              { read := true, write := true, execute := true, page := page } }
        | none => some st
    else
      some st
  else
    some st

/-- The PAM::update_pam loop over the enumerated pam_buffer, starting at
index page. -/
def pamLoop (new_counter : Nat) : PAM → Nat → List Nat → Option PAM
  | st, _, [] => some st
  | st, page, value :: rest => do
    let st2 ← st.update_entry page value new_counter
    pamLoop new_counter st2 (page + 1) rest

/-- PAM::update_pam (tlblur.rs). The counter and buffer contents read from
enclave memory are passed in. The Rust buffer keeps pam_size = num_pages * 8
u64 slots of which the read fills the first num_pages (the rest stay zero
and never satisfy value > 0); the model takes the buffer contents wholesale.
The unused found flag only drives a commented-out warning. -/
def PAM.update_pam (pam : PAM) (new_counter : Nat) (enclave_buffer : List Nat) :
    Option PAM :=
  if pam.pam_counter = new_counter then
    some pam
  else
    pamLoop new_counter { pam with pam_buffer := enclave_buffer } 0 enclave_buffer

/-- PAM::get_pam (tlblur.rs): iterate the mirrored active set. -/
def PAM.get_pam (pam : PAM) : List PageAccess :=
  pam.pam_active

/-! ## Simulated hardware TLB (tlblur.rs) -/

/-- TLBEntry (tlblur.rs). -/
structure TLBEntry where
  page : PageAccess
  valid : Bool
deriving DecidableEq, Repr

/-- Set (tlblur.rs); named TLBSet because Set is taken in Lean. The VecDeque
is LRU-first, MRU-last. -/
structure TLBSet where
  ways : List TLBEntry
  capacity : Nat
deriving DecidableEq, Repr

def TLBSet.new (capacity : Nat) : TLBSet :=
  { ways := [], capacity := capacity }

/-- Set::lookup (tlblur.rs): some valid entry covers the page. -/
def TLBSet.lookup (s : TLBSet) (page : PageAccess) : Bool :=
  s.ways.any fun entry => entry.page.covers page && entry.valid

/-- Set::insert (tlblur.rs): promote a covering valid entry to MRU,
otherwise append, evicting the LRU entry when the set is full. -/
def TLBSet.insert (s : TLBSet) (page : PageAccess) : TLBSet :=
  match s.ways.findIdx? fun entry => entry.page.covers page && entry.valid with
  | some pos =>
    match s.ways[pos]? with
    | some entry => { s with ways := s.ways.eraseIdx pos ++ [entry] }
    | none => s
  | none =>
    let ways := if s.ways.length = s.capacity then s.ways.tail else s.ways
    { s with ways := ways ++ [{ page := page, valid := true }] }

/-- HardwareTLB (tlblur.rs): perfect (a HashSet, modelled as a list without
duplicates) or set-associative. -/
inductive HardwareTLB where
  | Perfect (pages : List PageAccess)
  | SetAssociative (sets : List TLBSet) (num_sets : Nat) (ways_per_set : Nat)
deriving DecidableEq, Repr

/-- HashSet::insert on the full PageAccess tuple. -/
def hashInsert (s : List PageAccess) (p : PageAccess) : List PageAccess :=
  if s.contains p then s else s ++ [p]

/-- Replace the element at index i when it exists. -/
def modifyIdx (l : List TLBSet) (i : Nat) (f : TLBSet → TLBSet) : List TLBSet :=
  match l[i]? with
  | some x => l.set i (f x)
  | none => l

/-- HardwareTLB::get_set_index (tlblur.rs). Rust panics on num_sets = 0; the
configurations built by the program always have num_sets = sets.length. -/
def HardwareTLB.get_set_index (page : PageAccess) (num_sets : Nat) : Nat :=
  page.page % num_sets

/-- HardwareTLB::flush (tlblur.rs). -/
def HardwareTLB.flush : HardwareTLB → HardwareTLB
  | .Perfect _ => .Perfect []
  | .SetAssociative sets num_sets ways_per_set =>
    .SetAssociative (sets.map fun s => { s with ways := [] }) num_sets ways_per_set

/-- HardwareTLB::update (tlblur.rs). -/
def HardwareTLB.update (tlb : HardwareTLB) (pages : List PageAccess) :
    HardwareTLB :=
  match tlb with
  | .Perfect s => .Perfect (pages.foldl hashInsert s)
  | .SetAssociative sets num_sets ways_per_set =>
    .SetAssociative
      (pages.foldl
        (fun ss p => modifyIdx ss (HardwareTLB.get_set_index p num_sets)
          fun s => s.insert p)
        sets)
      num_sets ways_per_set

/-- HardwareTLB::test (tlblur.rs). -/
def HardwareTLB.test (tlb : HardwareTLB) (page : PageAccess) : Bool :=
  match tlb with
  | .Perfect pages => pages.any fun p => p.covers page
  | .SetAssociative sets num_sets _ =>
    ((sets.getD (HardwareTLB.get_set_index page num_sets) (TLBSet.new 0)).lookup
      page)

/-- HardwareTLB::iter (tlblur.rs): the set-associative arm is todo!(), which
panics, modelled as none. -/
def HardwareTLB.iter : HardwareTLB → Option (List PageAccess)
  | .Perfect pages => some pages
  | .SetAssociative _ _ _ => none

/-! ## Attacker policy (tlblur.rs) -/

/-- Attacker (tlblur.rs). -/
inductive Attacker where
  | DebugSingleStep
  | SingleStep
  | PageFault (live_pages : List Nat) (observe_ptes : Bool)
  | Stealthy
deriving DecidableEq, Repr

/-- CanObserve (tlblur.rs). -/
inductive CanObserve where
  | Always
  | Interrupt
deriving DecidableEq, BEq, Repr

/-- Attacker::can_trigger_interrupt (tlblur.rs). -/
def Attacker.can_trigger_interrupt (att : Attacker) (page_table : PageTable)
    (hw_tlb : HardwareTLB) : Bool :=
  match att with
  | .DebugSingleStep => true
  | .SingleStep =>
    decide (0 < (page_table.get_accessed_pages fun p => !hw_tlb.test p).length)
  | .PageFault live_pages _ =>
    (page_table.get_accessed_pages fun p => !hw_tlb.test p).any fun p =>
      !live_pages.contains p.page
  | .Stealthy => false

/-- The page accesses Attacker::observe writes to the VCD entry (tlblur.rs):
a PageFault attacker with observe_ptes = false sees only the currently
accessed pages outside the TLB and outside live_pages, everyone else sees
the accumulated observations. -/
def Attacker.observePages (att : Attacker) (page_table : PageTable)
    (hw_tlb : HardwareTLB) (observations : PageTableObservations) :
    List PageAccess :=
  match att with
  | .PageFault live_pages false =>
    (page_table.get_accessed_pages fun p => !hw_tlb.test p).filter fun p =>
      !live_pages.contains p.page
  | _ => observations.values

/-- Attacker::can_observe (tlblur.rs). -/
def Attacker.can_observe : Attacker → CanObserve
  | .Stealthy => .Always
  | _ => .Interrupt

/-- Attacker::handle_step (tlblur.rs): Stealthy clears the observations. -/
def Attacker.handle_step (att : Attacker)
    (observations : PageTableObservations) : PageTableObservations :=
  match att with
  | .Stealthy => observations.clear
  | _ => observations

/-- Attacker::handle_interrupt (tlblur.rs): PageFault repopulates live_pages
with every accessed page and clears the observations; Stealthy does
nothing; the rest clear the observations. -/
def Attacker.handle_interrupt (att : Attacker) (page_table : PageTable)
    (observations : PageTableObservations) :
    Attacker × PageTableObservations :=
  match att with
  | .PageFault _ observe_ptes =>
    (.PageFault (page_table.get_all_accessed_pages.map fun p => p.page)
      observe_ptes,
     observations.clear)
  | .Stealthy => (.Stealthy, observations)
  | a => (a, observations.clear)

/-! ## Trace writer (dump.rs) -/

/-- A command written to the VCD file: a scalar change on a page wire, an
erip vector change, or a timestamp. -/
inductive VCDCmd where
  | change (wire : Nat) (value : Bool)
  | erip (value : Nat)
  | stamp (t : Nat)
deriving DecidableEq, Repr

/-- First loop of VCDStatefulSet::update_state (dump.rs): for each written
item, if its wire is low, raise it and emit a change. Indexing a wire out of
range panics in Rust, modelled as none. -/
def risePass : List Bool → List Nat → Option (List Bool × List VCDCmd)
  | s, [] => some (s, [])
  | s, item :: rest => do
    let cur ← s[item]?
    if cur then
      risePass s rest
    else do
      let sr ← risePass (s.set item true) rest
      some (sr.1, VCDCmd.change item true :: sr.2)

/-- Second loop of VCDStatefulSet::update_state (dump.rs): every high wire
whose item was not written is lowered with a change; ofs is the index of the
first wire of s. -/
def fallPass (items : List Nat) : List Bool → Nat → List Bool × List VCDCmd
  | [], _ => ([], [])
  | b :: rest, ofs =>
    if b && !items.contains ofs then
      (false :: (fallPass items rest (ofs + 1)).1,
       VCDCmd.change ofs false :: (fallPass items rest (ofs + 1)).2)
    else
      (b :: (fallPass items rest (ofs + 1)).1, (fallPass items rest (ofs + 1)).2)

/-- VCDStatefulSet::update_state (dump.rs): raise newly written wires, then
lower stale ones. -/
def VCDStatefulSet.update_state (s : List Bool) (items : List Nat) :
    Option (List Bool × List VCDCmd) := do
  let sr ← risePass s items
  let fr := fallPass items sr.1 0
  some (fr.1, sr.2 ++ fr.2)

/-- The page items an RSet write_page_accesses run pushes (dump.rs, RSet):
only accesses with the read bit. -/
def readPages (accesses : List PageAccess) : List Nat :=
  (accesses.filter fun p => p.read).map fun p => p.page

/-- VCDDumper (dump.rs): wire state, current timestamp, and the stream of
commands written so far. -/
structure VCDDumper where
  state : List Bool
  ts : Nat
  emitted : List VCDCmd
deriving DecidableEq, Repr

/-- The erip change commands written when write_erip is called. -/
def eripCmds : Option Nat → List VCDCmd
  | some v => [VCDCmd.erip v]
  | none => []

/-- VCDDumper::next_step (dump.rs): the closure optionally writes erip, then
writes the page accesses of this step; dropping the entry bumps the
timestamp by one and writes it. -/
def VCDDumper.next_step (d : VCDDumper) (er : Option Nat)
    (accesses : List PageAccess) : Option VCDDumper := do
  let sr ← VCDStatefulSet.update_state d.state (readPages accesses)
  some { state := sr.1
         ts := d.ts + 1
         emitted := d.emitted ++ eripCmds er ++ sr.2 ++ [VCDCmd.stamp (d.ts + 1)] }

/-! ## Trap handler (tlblur.rs, main) -/

/-- The configuration captured by the trap-handler closure. -/
structure TrapConfig where
  write_erip : Bool
  no_prefetch : Bool
  base : Nat
  limit : Nat
  pam_update_code_address : Nat
  pam_counter_address : Nat
  pam_address : Nat
deriving DecidableEq, Repr

/-- The external values one trap reads: the enclave PAM counter and buffer,
the saved erip and rsp. -/
structure TrapInput where
  counter : Nat
  pam_mem : List Nat
  erip : Nat
  rsp : Nat
deriving DecidableEq, Repr

/-- The mutable state owned by the trap handler. -/
structure TrapState where
  pam : PAM
  page_table : PageTable
  pte_observations : PageTableObservations
  attacker : Attacker
  hw_tlb : HardwareTLB
  dumper : VCDDumper
  pam_dumper : Option VCDDumper
  hwtlb_dumper : Option VCDDumper
  first_run : Bool
deriving DecidableEq, Repr

/-- The erip argument a dumper step receives. -/
def eripArg (cfg : TrapConfig) (inp : TrapInput) : Option Nat :=
  if cfg.write_erip then some inp.erip else none

/-- Inclusive u64 range a..=b as a list. -/
def rangeIncl (a b : Nat) : List Nat :=
  (List.range (b + 1 - a)).map fun i => a + i

/-- The stack pages prefetched after an interrupt: the three pages around
the saved stack pointer. With stack_page = 0 the wrapped u64 range
(u64::MAX)..=1 is empty. -/
def stackPages (stack_page : Nat) : List PageAccess :=
  (if stack_page = 0 then [] else rangeIncl (stack_page - 1) (stack_page + 1)).map
    fun page => { read := true, execute := true, write := false, page := page }

/-- The PAM data pages prefetched after an interrupt. -/
def pamPages (pam_page len : Nat) : List PageAccess :=
  (rangeIncl pam_page (pam_page + len * 8 / 4096)).map
    fun page => { read := true, execute := false, write := true, page := page }

/-- The trap-handler closure of tlblur.rs main, invoked on every SIGTRAP.
Address arithmetic uses truncated Nat subtraction, matching u64 for the
sane configurations where the symbols lie inside the enclave. A panic in
any sub-operation (modelled none) aborts the process. -/
def trapHandler (cfg : TrapConfig) (st : TrapState) (inp : TrapInput) :
    Option TrapState := do
  let pam ← st.pam.update_pam inp.counter inp.pam_mem
  if st.first_run then
    return { st with
      pam := pam
      page_table := st.page_table.clear_all_ad_bits
      first_run := false }
  let pam_dumper ←
    match st.pam_dumper with
    | none => some none
    | some d => (d.next_step (eripArg cfg inp) pam.get_pam).map some
  let hwtlb_dumper ←
    match st.hwtlb_dumper with
    | none => some none
    | some d => do
      let hw_pages ← st.hw_tlb.iter
      (d.next_step (eripArg cfg inp) hw_pages).map some
  let page_table := st.page_table.update_page_accesses
  let obs := st.pte_observations.update
    (page_table.get_accessed_pages fun p => !st.hw_tlb.test p)
  let co := st.attacker.can_observe
  let cti := st.attacker.can_trigger_interrupt page_table st.hw_tlb
  let dumper ←
    if co == CanObserve.Always || (cti && co == CanObserve.Interrupt) then
      st.dumper.next_step (eripArg cfg inp)
        (st.attacker.observePages page_table st.hw_tlb obs)
    else
      some st.dumper
  let obs := st.attacker.handle_step obs
  if cti then
    let ao := st.attacker.handle_interrupt page_table obs
    let tlb := st.hw_tlb.flush
    let to2 :=
      if !cfg.no_prefetch then
        let tlb := tlb.update pam.get_pam
        let obs := ao.2.update pam.get_pam
        let to1 :=
          if cfg.base ≤ inp.rsp ∧ inp.rsp ≤ cfg.limit then
            let sp := stackPages ((inp.rsp - cfg.base) / 4096)
            (tlb.update sp, obs.update sp)
          else
            (tlb, obs)
        let pa1 : PageAccess :=
          { read := true, execute := true, write := false
            page := (cfg.pam_update_code_address - cfg.base) / 4096 }
        let tlb := to1.1.update [pa1]
        let obs := to1.2.update [pa1]
        let pa2 : PageAccess :=
          { read := true, execute := false, write := true
            page := (cfg.pam_counter_address - cfg.base) / 4096 }
        let tlb := tlb.update [pa2]
        let obs := obs.update [pa2]
        let pp := pamPages ((cfg.pam_address - cfg.base) / 4096)
          pam.pam_buffer.length
        (tlb.update pp, obs.update pp)
      else
        (tlb, ao.2)
    return { pam := pam
             page_table := page_table.clear_all_ad_bits
             pte_observations := to2.2
             attacker := ao.1
             hw_tlb := to2.1
             dumper := dumper
             pam_dumper := pam_dumper
             hwtlb_dumper := hwtlb_dumper
             first_run := false }
  else
    return { pam := pam
             page_table := page_table.clear_all_ad_bits
             pte_observations := obs
             attacker := st.attacker
             hw_tlb := st.hw_tlb.update page_table.get_all_accessed_pages
             dumper := dumper
             pam_dumper := pam_dumper
             hwtlb_dumper := hwtlb_dumper
             first_run := false }

/-! ## Basic facts about covers -/

theorem PageAccess.covers_refl (p : PageAccess) : p.covers p = true := by
  rcases p with ⟨r, w, x, pg⟩
  cases r <;> cases w <;> cases x <;> simp [PageAccess.covers]

theorem PageAccess.covers_of_page_ne {p q : PageAccess} (h : p.page ≠ q.page) :
    p.covers q = false := by
  simp [PageAccess.covers, h]

/-! ## Claim C8: PageAccess algebra and Perfect TLB subsumption -/

/-- Claim C8: for PageAccess values on the same page, a covers a.union(b)
exactly when a covers b, and a covers b exactly when every permission bit
set in b is also set in a; inserting an r/w/x access for a page into a
Perfect HardwareTLB makes the read-only, write-only and execute-only tests
for that page succeed. -/
theorem page_access_algebra :
    (∀ a b : PageAccess, a.page = b.page →
      (a.covers (a.union b) = true ↔ a.covers b = true) ∧
      (a.covers b = true ↔
        ((b.read = true → a.read = true) ∧
         (b.write = true → a.write = true) ∧
         (b.execute = true → a.execute = true)))) ∧
    (∀ (s : List PageAccess) (page : Nat),
      ((HardwareTLB.Perfect s).update
          [{ read := true, write := true, execute := true, page := page }]).test
        { read := true, write := false, execute := false, page := page } = true ∧
      ((HardwareTLB.Perfect s).update
          [{ read := true, write := true, execute := true, page := page }]).test
        { read := false, write := true, execute := false, page := page } = true ∧
      ((HardwareTLB.Perfect s).update
          [{ read := true, write := true, execute := true, page := page }]).test
        { read := false, write := false, execute := true, page := page } = true) := by
  constructor
  · intro a b hpage
    rcases a with ⟨ar, aw, ax, ap⟩
    rcases b with ⟨br, bw, bx, bp⟩
    simp only at hpage
    subst hpage
    constructor
    · simp only [PageAccess.covers, PageAccess.union]
      cases ar <;> cases aw <;> cases ax <;> cases br <;> cases bw <;> cases bx <;>
        simp
    · simp only [PageAccess.covers]
      cases ar <;> cases aw <;> cases ax <;> cases br <;> cases bw <;> cases bx <;>
        simp
  · intro s page
    have hmem :
        ({ read := true, write := true, execute := true, page := page } :
          PageAccess) ∈
          hashInsert s { read := true, write := true, execute := true, page := page } := by
      unfold hashInsert
      split <;> simp_all
    refine ⟨?_, ?_, ?_⟩ <;>
    · simp only [HardwareTLB.update, HardwareTLB.test, List.foldl]
      rw [List.any_eq_true]
      exact ⟨_, hmem, by simp [PageAccess.covers]⟩

/-! ## Claim C3: attacker interruption policy -/

/-- The page table observed during the interrupt of scenario S6: pages 10
and 11 accessed. -/
def ptA : PageTable :=
  { page_table_map := []
    pages := [{ read := true, write := false, execute := false, page := 10 },
              { read := true, write := true, execute := false, page := 11 }]
    accessed_ptes := [] }

/-- The page table of the subsequent step of scenario S6: only page 10
accessed. -/
def ptB : PageTable :=
  { page_table_map := []
    pages := [{ read := true, write := false, execute := false, page := 10 }]
    accessed_ptes := [] }

/-- Claim C3: DebugSingleStep always interrupts; SingleStep interrupts iff
some accessed page is outside the hardware TLB; PageFault interrupts iff
some accessed page is outside the TLB and outside live_pages; Stealthy
never interrupts. After a PageFault interrupt with pages 10 and 11 accessed
(handle_interrupt repopulates live_pages with all accessed pages), a step
accessing only page 10 triggers no further interrupt, whatever the TLB
state. -/
theorem attacker_interrupt_policy :
    (∀ (pt : PageTable) (tlb : HardwareTLB),
      Attacker.DebugSingleStep.can_trigger_interrupt pt tlb = true) ∧
    (∀ (pt : PageTable) (tlb : HardwareTLB),
      Attacker.SingleStep.can_trigger_interrupt pt tlb = true ↔
        ∃ p ∈ pt.pages, tlb.test p = false) ∧
    (∀ (pt : PageTable) (tlb : HardwareTLB) (live : List Nat) (op : Bool),
      (Attacker.PageFault live op).can_trigger_interrupt pt tlb = true ↔
        ∃ p ∈ pt.pages, tlb.test p = false ∧ p.page ∉ live) ∧
    (∀ (pt : PageTable) (tlb : HardwareTLB),
      Attacker.Stealthy.can_trigger_interrupt pt tlb = false) ∧
    (∀ (live0 : List Nat) (op : Bool) (obs : PageTableObservations),
      ((Attacker.PageFault live0 op).handle_interrupt ptA obs).1 =
        Attacker.PageFault [10, 11] op) ∧
    (∀ (live0 : List Nat) (op : Bool) (obs : PageTableObservations)
        (tlb : HardwareTLB),
      (((Attacker.PageFault live0 op).handle_interrupt ptA
          obs).1).can_trigger_interrupt ptB tlb = false) := by
  refine ⟨fun pt tlb => rfl, ?_, ?_, fun pt tlb => rfl,
    fun live0 op obs => rfl, ?_⟩
  · intro pt tlb
    rw [show Attacker.SingleStep.can_trigger_interrupt pt tlb =
      decide (0 < (pt.pages.filter fun p => !tlb.test p).length) from rfl]
    rw [decide_eq_true_iff]
    constructor
    · intro h
      have hne : pt.pages.filter (fun p => !tlb.test p) ≠ [] := by
        intro hnil
        rw [hnil] at h
        exact absurd h (by simp)
      obtain ⟨p, hp⟩ := List.exists_mem_of_ne_nil _ hne
      have hm := List.mem_filter.mp hp
      exact ⟨p, hm.1, by simpa using hm.2⟩
    · rintro ⟨p, hmem, htest⟩
      exact List.length_pos_of_mem (List.mem_filter.mpr ⟨hmem, by simp [htest]⟩)
  · intro pt tlb live op
    rw [show (Attacker.PageFault live op).can_trigger_interrupt pt tlb =
      ((pt.pages.filter fun p => !tlb.test p).any fun p =>
        !live.contains p.page) from rfl]
    rw [List.any_eq_true]
    constructor
    · rintro ⟨p, hp, hlive⟩
      have hm := List.mem_filter.mp hp
      exact ⟨p, hm.1, by simpa using hm.2, by simpa using hlive⟩
    · rintro ⟨p, hmem, htest, hlive⟩
      exact ⟨p, List.mem_filter.mpr ⟨hmem, by simp [htest]⟩, by simpa using hlive⟩
  · intro live0 op obs tlb
    rw [show ((Attacker.PageFault live0 op).handle_interrupt ptA obs).1 =
      Attacker.PageFault [10, 11] op from rfl]
    by_cases h :
      tlb.test { read := true, write := false, execute := false, page := 10 }
    · simp [Attacker.can_trigger_interrupt, PageTable.get_accessed_pages, ptB, h]
    · simp [Attacker.can_trigger_interrupt, PageTable.get_accessed_pages, ptB, h]

/-! ## Claim C2: PAM mirror -/

/-- Modelled from the spec claim (not from the source): pam_active holds
exactly the (up to) pws_size pages with the highest pam_buffer counters.
Page 0 counts as an empty slot, as the spec says; so the real active pages
are the nonzero ones, their number is min pws_size (number of pages with a
positive counter), they all have positive counters, and no page outside
pam_active has a counter above one inside. -/
def pamTopK (active : List PageAccess) (buffer : List Nat) (k : Nat) : Prop :=
  ((active.map fun p => p.page).filter fun p => p ≠ 0).length =
    min k (((List.range buffer.length).filter fun p => 0 < buffer.getD p 0).length) ∧
  (∀ p ∈ (active.map fun p => p.page).filter fun p => p ≠ 0,
    p ∈ (List.range buffer.length).filter fun p => 0 < buffer.getD p 0) ∧
  (∀ p ∈ (active.map fun p => p.page).filter fun p => p ≠ 0,
    ∀ q ∈ (List.range buffer.length).filter fun p => 0 < buffer.getD p 0,
      q ∉ (active.map fun p => p.page).filter (fun p => p ≠ 0) →
        buffer.getD q 0 ≤ buffer.getD p 0)

theorem mem_map_set {l : List PageAccess} {i : Nat} {v : PageAccess} {q : Nat}
    (h : q ∈ (l.set i v).map fun p => p.page) :
    q ∈ l.map (fun p => p.page) ∨ q = v.page := by
  induction l generalizing i with
  | nil => simp at h
  | cons a t ih =>
    cases i with
    | zero =>
      simp only [List.set] at h
      rcases List.mem_map.mp h with ⟨x, hx, hq⟩
      rcases List.mem_cons.mp hx with hhead | htail
      · right; rw [hhead] at hq; omega
      · left; exact List.mem_map.mpr ⟨x, List.mem_cons_of_mem _ htail, hq⟩
    | succ j =>
      simp only [List.set, List.map_cons, List.mem_cons] at h
      rcases h with hq | hq
      · left; simp [hq]
      · rcases ih hq with h1 | h1
        · left; simp [h1]
        · right; exact h1

theorem update_entry_active {st : PAM} {page value c : Nat} {st2 : PAM}
    (h : st.update_entry page value c = some st2) :
    st2.pam_active = st.pam_active ∨
    (u64sub1 c ≤ value ∧ 0 < value ∧
      ∃ index, st2.pam_active =
        st.pam_active.set index
          { read := true, write := true, execute := true, page := page }) := by
  unfold PAM.update_entry at h
  split at h
  case isTrue hcond =>
    dsimp only at h
    split at h
    case isTrue hfind =>
      split at h
      case h_1 => exact absurd h (by simp)
      case h_2 keys hkeys =>
        split at h
        case h_1 index hidx =>
          right
          refine ⟨hcond.1, hcond.2, index, ?_⟩
          injection h with h2
          rw [← h2]
        case h_2 =>
          left
          injection h with h2
          rw [← h2]
    case isFalse hfind =>
      left
      injection h with h2
      rw [← h2]
  case isFalse hcond =>
    left
    injection h with h2
    rw [← h2]

theorem pamLoop_active :
    ∀ (rest : List Nat) (c idx : Nat) (st st2 : PAM) (buf : List Nat),
      pamLoop c st idx rest = some st2 →
      (∀ j, rest[j]? = buf[idx + j]?) →
      ∀ q ∈ st2.pam_active.map fun p => p.page,
        q ∈ st.pam_active.map (fun p => p.page) ∨
        ∃ v, buf[q]? = some v ∧ u64sub1 c ≤ v ∧ 0 < v := by
  intro rest
  induction rest with
  | nil =>
    intro c idx st st2 buf h _ q hq
    simp only [pamLoop] at h
    injection h with h2
    rw [← h2] at hq
    exact Or.inl hq
  | cons value rest2 ih =>
    intro c idx st st2 buf h hsuf q hq
    simp only [pamLoop, Option.bind_eq_bind, Option.bind] at h
    split at h
    case h_1 => exact absurd h (by simp)
    case h_2 stm hstm =>
      have hsuf2 : ∀ j, rest2[j]? = buf[idx + 1 + j]? := by
        intro j
        have := hsuf (j + 1)
        simpa [show idx + (j + 1) = idx + 1 + j by omega] using this
      rcases ih c (idx + 1) stm st2 buf h hsuf2 q hq with hmem | hrec
      · rcases update_entry_active hstm with heq | ⟨hge, hpos, index, hset⟩
        · rw [heq] at hmem
          exact Or.inl hmem
        · rw [hset] at hmem
          rcases mem_map_set hmem with h1 | h1
          · exact Or.inl h1
          · right
            refine ⟨value, ?_, hge, hpos⟩
            have := hsuf 0
            simpa [h1] using this.symm
      · exact Or.inr hrec

theorem update_pam_active {pam : PAM} {c : Nat} {buf : List Nat} {pam2 : PAM}
    (h : pam.update_pam c buf = some pam2) :
    ∀ q ∈ pam2.pam_active.map fun p => p.page,
      q ∈ pam.pam_active.map (fun p => p.page) ∨
      ∃ v, buf[q]? = some v ∧ u64sub1 c ≤ v ∧ 0 < v := by
  unfold PAM.update_pam at h
  split at h
  · injection h with h2
    rw [h2]
    intro q hq
    exact Or.inl hq
  · exact pamLoop_active buf c 0 ({ pam with pam_buffer := buf } : PAM) pam2 buf
      h (fun j => by simp)

/-- The buffer of the S5 scenario. -/
def s5buf : List Nat := [0, 0, 5, 0, 7, 0, 9]

/-- The PAM state after PAM::update_pam with pws_size 2, new counter 5 and
buffer [0, 3, 5, 0]: page 2 was promoted, page 1 (counter 3) was not, and
one slot stays empty. -/
def c2res : PAM :=
  { pam_buffer := [0, 3, 5, 0]
    pam_active := [{ read := true, write := true, execute := true, page := 2 },
                   PageAccess.default]
    pam_counter := 5 }

/-- Claim C2, counterexample: after a single update_pam in which the enclave
counter jumped from 0 to 5, pam_active does not contain the two pages with
the highest counters of [0, 3, 5, 0]: page 1 has counter 3 > 0 but is never
promoted, because only pages with counters at or above new_counter - 1 are
considered. -/
theorem pam_topk_counterexample :
    (PAM.new 4 2).update_pam 5 [0, 3, 5, 0] = some c2res ∧
    ¬ pamTopK c2res.pam_active [0, 3, 5, 0] 2 := by
  constructor
  · decide
  · unfold pamTopK
    decide

/-- Claim C2, amended: pam_active is not in general the pws_size pages with
the highest pam_buffer counters (see the counterexample); what holds is
that update_pam only ever promotes recently counted pages, i.e. every page
in pam_active after an update was already there or has a buffer counter
that is positive and at least new_counter - 1, and that in the single-step
S5 scenario (pws_size 2, buffer [0,0,5,0,7,0,9], counters 5, 7, 9) the
mirror does converge to the pages {4, 6}. -/
theorem pam_update_amended :
    (((do
        let p1 ← (PAM.new 7 2).update_pam 5 s5buf
        let p2 ← p1.update_pam 7 s5buf
        p2.update_pam 9 s5buf : Option PAM)).map
          (fun p => p.pam_active.map fun a => a.page) = some [6, 4]) ∧
    (∀ (pam : PAM) (c : Nat) (buf : List Nat) (pam2 : PAM),
      pam.update_pam c buf = some pam2 →
      ∀ q ∈ pam2.pam_active.map fun p => p.page,
        q ∈ pam.pam_active.map (fun p => p.page) ∨
        ∃ v, buf[q]? = some v ∧ u64sub1 c ≤ v ∧ 0 < v) :=
  ⟨by decide, fun _ _ _ _ h => update_pam_active h⟩

/-- Witness for the amended claim C2, at pws_size 1, counter 1, buffer [5]:
the surviving active page 0 was already in the initial mirror. -/
theorem pam_update_amended_witness :
    (PAM.new 1 1).update_pam 1 [5] =
      some { pam_buffer := [5], pam_active := [PageAccess.default],
             pam_counter := 1 } ∧
    ((0 : Nat) ∈ ((PAM.new 1 1).pam_active.map fun p => p.page) ∨
      ∃ v, ([5] : List Nat)[(0 : Nat)]? = some v ∧ u64sub1 1 ≤ v ∧ 0 < v) :=
  ⟨by decide,
   pam_update_amended.2 (PAM.new 1 1) 1 [5]
     { pam_buffer := [5], pam_active := [PageAccess.default], pam_counter := 1 }
     (by decide) 0 (by decide)⟩

/-! ## Claim C5: set-associative set validity -/

/-- The PageAccess values of the valid entries of a set. -/
def validPages (s : TLBSet) : List PageAccess :=
  (s.ways.filter fun e => e.valid).map fun e => e.page

theorem eraseIdx_append_perm {α : Type} {l : List α} {pos : Nat} {e : α}
    (h : l[pos]? = some e) : (l.eraseIdx pos ++ [e]).Perm l := by
  have hlt : pos < l.length := by
    by_contra hge
    rw [List.getElem?_eq_none (by omega)] at h
    exact absurd h (by simp)
  have he : l[pos] = e := by
    rw [List.getElem?_eq_getElem hlt] at h
    injection h with h2
  have h1 : l.eraseIdx pos ++ [e] = l.take pos ++ (l.drop (pos + 1) ++ [e]) := by
    rw [List.eraseIdx_eq_take_drop_succ, List.append_assoc]
  have h3 : l.take pos ++ ([e] ++ l.drop (pos + 1)) = l := by
    rw [← he, List.singleton_append, ← List.drop_eq_getElem_cons hlt,
      List.take_append_drop]
  rw [h1]
  have h2 : (l.take pos ++ (l.drop (pos + 1) ++ [e])).Perm
      (l.take pos ++ ([e] ++ l.drop (pos + 1))) :=
    List.Perm.append_left _ List.perm_append_comm
  rw [h3] at h2
  exact h2

theorem insert_validPages_nodup {s : TLBSet} {p : PageAccess}
    (h : (validPages s).Nodup) : (validPages (s.insert p)).Nodup := by
  unfold TLBSet.insert
  split
  case h_1 pos hfind =>
    split
    case h_1 e he =>
      have hperm : ((s.ways.eraseIdx pos ++ [e]).Perm s.ways) :=
        eraseIdx_append_perm he
      have hvp : (validPages { s with ways := s.ways.eraseIdx pos ++ [e] }).Perm
          (validPages s) :=
        List.Perm.map _ (List.Perm.filter _ hperm)
      exact h.perm hvp.symm
    case h_2 => exact h
  case h_2 hfind =>
    have hall := List.findIdx?_eq_none_iff.mp hfind
    have hnodup_pre : ∀ (ways : List TLBEntry), ways.Sublist s.ways →
        (validPages { s with
          ways := ways ++ [{ page := p, valid := true }] }).Nodup := by
      intro ways hsub
      have hsubv : ((ways.filter fun e => e.valid).map fun e => e.page).Sublist
          (validPages s) :=
        List.Sublist.map _ (List.Sublist.filter _ hsub)
      unfold validPages
      simp only [List.filter_append, List.map_append]
      rw [List.nodup_append]
      have hone : ((List.filter (fun e => e.valid)
          [({ page := p, valid := true } : TLBEntry)]).map fun e => e.page).Nodup := by
        simp [List.filter_cons]
      refine ⟨hsubv.nodup h, hone, ?_⟩
      intro a ha hb
      have hap : a = p := by simpa using hb
      rcases List.mem_map.mp ha with ⟨e2, he2, hpage⟩
      have he2f := List.mem_filter.mp he2
      have hem := hsub.subset he2f.1
      have hpred := hall e2 hem
      rw [Bool.and_eq_false_iff] at hpred
      rcases hpred with hc | hv
      · have hcov : e2.page.covers p = true := by
          rw [hpage, hap]
          exact PageAccess.covers_refl p
        rw [hcov] at hc
        exact absurd hc (by simp)
      · rw [he2f.2] at hv
        exact absurd hv (by simp)
    split
    · exact hnodup_pre _ (List.tail_sublist _)
    · exact hnodup_pre _ (List.Sublist.refl _)

/-- Claim C5, counterexample: inserting a read-only access and then a
read/write access for page 5 into an empty 2-way set leaves two valid
entries with the same page index 5, because the hit test uses permission
subsumption and the second access is not covered by the first entry. -/
theorem set_per_page_counterexample :
    ¬ (((((TLBSet.new 2).insert
          { read := true, write := false, execute := false, page := 5 }).insert
          { read := true, write := true, execute := false, page := 5 }).ways.filter
            fun e => e.valid).map fun e => e.page.page).Nodup := by
  decide

/-- Claim C5, amended: after any sequence of Set::insert operations (lookup
takes the set immutably), each set holds at most one valid entry per
distinct PageAccess value, i.e. per (page, permissions) tuple; distinct
permission sets for the same page index may coexist. -/
theorem set_valid_entry_uniqueness :
    ∀ (capacity : Nat) (ops : List PageAccess),
      (validPages (ops.foldl TLBSet.insert (TLBSet.new capacity))).Nodup := by
  intro capacity ops
  suffices h : ∀ s : TLBSet, (validPages s).Nodup →
      (validPages (ops.foldl TLBSet.insert s)).Nodup by
    exact h _ (by simp [validPages, TLBSet.new])
  induction ops with
  | nil => exact fun s hs => hs
  | cons p rest ih => exact fun s hs => ih _ (insert_validPages_nodup hs)

/-! ## Claim C7: the first trap -/

/-- Claim C7, amended: on the very first trap the handler updates the PAM
mirror from enclave memory, clears the A/D bits of the page-table shadow
and returns; the TLB simulator, the observations, the attacker state and
all three trace writers are untouched. -/
theorem first_trap_frame :
    ∀ (cfg : TrapConfig) (st : TrapState) (inp : TrapInput) (st2 : TrapState),
      st.first_run = true →
      trapHandler cfg st inp = some st2 →
      st.pam.update_pam inp.counter inp.pam_mem = some st2.pam ∧
      st2.page_table = st.page_table.clear_all_ad_bits ∧
      st2.pte_observations = st.pte_observations ∧
      st2.attacker = st.attacker ∧
      st2.hw_tlb = st.hw_tlb ∧
      st2.dumper = st.dumper ∧
      st2.pam_dumper = st.pam_dumper ∧
      st2.hwtlb_dumper = st.hwtlb_dumper ∧
      st2.first_run = false := by
  intro cfg st inp st2 hfr h
  unfold trapHandler at h
  rw [hfr] at h
  cases hup : st.pam.update_pam inp.counter inp.pam_mem with
  | none =>
    rw [hup] at h
    exact absurd h (by simp)
  | some pam =>
    rw [hup] at h
    simp only [Option.bind_eq_bind, Option.some_bind, if_true] at h
    injection h with h2
    rw [← h2]
    exact ⟨rfl, rfl, rfl, rfl, rfl, rfl, rfl, rfl, rfl⟩

/-- A concrete first-trap state: stale A/D bits in the shadow, fresh PAM
with one page and one active slot, Stealthy attacker, perfect TLB. -/
def c7st : TrapState :=
  { pam := PAM.new 1 1
    page_table :=
      { page_table_map := [some { accessed := true, dirty := true, present := true }]
        pages := []
        accessed_ptes := [] }
    pte_observations := { state := [] }
    attacker := .Stealthy
    hw_tlb := .Perfect []
    dumper := { state := [false], ts := 0, emitted := [] }
    pam_dumper := none
    hwtlb_dumper := none
    first_run := true }

def c7cfg : TrapConfig :=
  { write_erip := false, no_prefetch := false, base := 0, limit := 0
    pam_update_code_address := 0, pam_counter_address := 0, pam_address := 0 }

/-- The first trap reads enclave counter 1 and PAM buffer [1]. -/
def c7inp : TrapInput := { counter := 1, pam_mem := [1], erip := 0, rsp := 0 }

/-- Claim C7, counterexample: on the very first trap the handler calls
PAM::update_pam before the first-run check, so the PAM mirror is mutated
(here its counter latches 1 and its buffer becomes [1]), contradicting the
claim that only the A/D bits change. -/
theorem first_trap_counterexample :
    c7st.first_run = true ∧
    (trapHandler c7cfg c7st c7inp).map (fun s => s.pam) ≠ some c7st.pam := by
  constructor
  · rfl
  · decide

/-- The state after the first trap on c7st. -/
def c7res : TrapState :=
  { pam := { pam_buffer := [1], pam_active := [PageAccess.default]
             pam_counter := 1 }
    page_table :=
      { page_table_map := [some { accessed := false, dirty := false, present := true }]
        pages := []
        accessed_ptes := [] }
    pte_observations := { state := [] }
    attacker := .Stealthy
    hw_tlb := .Perfect []
    dumper := { state := [false], ts := 0, emitted := [] }
    pam_dumper := none
    hwtlb_dumper := none
    first_run := false }

/-- Witness for the amended claim C7 on the concrete first trap. -/
theorem first_trap_frame_witness :
    c7st.pam.update_pam c7inp.counter c7inp.pam_mem = some c7res.pam ∧
    c7res.page_table = c7st.page_table.clear_all_ad_bits ∧
    c7res.pte_observations = c7st.pte_observations ∧
    c7res.attacker = c7st.attacker ∧
    c7res.hw_tlb = c7st.hw_tlb ∧
    c7res.dumper = c7st.dumper ∧
    c7res.pam_dumper = c7st.pam_dumper ∧
    c7res.hwtlb_dumper = c7st.hwtlb_dumper ∧
    c7res.first_run = false :=
  first_trap_frame c7cfg c7st c7inp c7res rfl (by decide)

/-! ## Claim C6: set LRU behaviour -/

theorem lookup_of_entry_mem {s : TLBSet} {p : PageAccess}
    (h : ({ page := p, valid := true } : TLBEntry) ∈ s.ways) :
    s.lookup p = true := by
  rw [TLBSet.lookup, List.any_eq_true]
  exact ⟨_, h, by simp [PageAccess.covers_refl]⟩

theorem lookup_of_pages_ne {s : TLBSet} {p : PageAccess}
    (h : ∀ e ∈ s.ways, e.page.page ≠ p.page) : s.lookup p = false := by
  rw [TLBSet.lookup, List.any_eq_false]
  intro e he
  rw [PageAccess.covers_of_page_ne (h e he)]
  simp

theorem insert_fresh_notfull {s : TLBSet} {p : PageAccess}
    (hfresh : ∀ e ∈ s.ways, e.page.page ≠ p.page)
    (hnotfull : s.ways.length ≠ s.capacity) :
    (s.insert p).ways = s.ways ++ [{ page := p, valid := true }] ∧
    (s.insert p).capacity = s.capacity := by
  have hnone : (s.ways.findIdx? fun e => e.page.covers p && e.valid) = none := by
    rw [List.findIdx?_eq_none_iff]
    intro e he
    rw [PageAccess.covers_of_page_ne (hfresh e he)]
    simp
  unfold TLBSet.insert
  rw [hnone]
  simp [hnotfull]

theorem insert_fresh_full {s : TLBSet} {p : PageAccess}
    (hfresh : ∀ e ∈ s.ways, e.page.page ≠ p.page)
    (hfull : s.ways.length = s.capacity) :
    (s.insert p).ways = s.ways.tail ++ [{ page := p, valid := true }] ∧
    (s.insert p).capacity = s.capacity := by
  have hnone : (s.ways.findIdx? fun e => e.page.covers p && e.valid) = none := by
    rw [List.findIdx?_eq_none_iff]
    intro e he
    rw [PageAccess.covers_of_page_ne (hfresh e he)]
    simp
  unfold TLBSet.insert
  rw [hnone]
  simp [hfull]

theorem insert_promote_head {s : TLBSet} {p : PageAccess} {rest : List TLBEntry}
    (hways : s.ways = { page := p, valid := true } :: rest) :
    (s.insert p).ways = rest ++ [{ page := p, valid := true }] ∧
    (s.insert p).capacity = s.capacity := by
  have hfind : (s.ways.findIdx? fun e => e.page.covers p && e.valid) = some 0 := by
    rw [hways, List.findIdx?_cons]
    simp [PageAccess.covers_refl]
  unfold TLBSet.insert
  rw [hfind, hways]
  simp [List.eraseIdx]

theorem foldl_insert_fresh :
    ∀ (ps : List PageAccess) (s : TLBSet),
      ((ps.map fun p => p.page).Nodup) →
      (∀ p ∈ ps, ∀ e ∈ s.ways, e.page.page ≠ p.page) →
      s.ways.length + ps.length ≤ s.capacity →
      (ps.foldl TLBSet.insert s).ways =
        s.ways ++ ps.map (fun p => { page := p, valid := true }) ∧
      (ps.foldl TLBSet.insert s).capacity = s.capacity := by
  intro ps
  induction ps with
  | nil => intro s _ _ _; exact ⟨by simp, rfl⟩
  | cons p rest ih =>
    intro s hnd hfresh hlen
    rw [List.map_cons, List.nodup_cons] at hnd
    have hnotfull : s.ways.length ≠ s.capacity := by
      simp only [List.length_cons] at hlen
      omega
    obtain ⟨hins, hinsc⟩ :=
      insert_fresh_notfull (fun e he => hfresh p (by simp) e he) hnotfull
    have hfresh2 : ∀ q ∈ rest, ∀ e ∈ (s.insert p).ways, e.page.page ≠ q.page := by
      intro q hq e he
      rw [hins] at he
      rcases List.mem_append.mp he with h1 | h1
      · exact hfresh q (List.mem_cons_of_mem _ hq) e h1
      · have he2 : e = ({ page := p, valid := true } : TLBEntry) := by
          simpa using h1
        rw [he2]
        intro hcontra
        have hmem : q.page ∈ rest.map fun x => x.page :=
          List.mem_map_of_mem _ hq
        rw [← hcontra] at hmem
        exact hnd.1 hmem
    have hlen2 : (s.insert p).ways.length + rest.length ≤ (s.insert p).capacity := by
      rw [hins, hinsc]
      simp only [List.length_append, List.length_cons, List.length_nil] at hlen ⊢
      omega
    obtain ⟨hw, hc⟩ := ih (s.insert p) hnd.2 hfresh2 hlen2
    refine ⟨?_, ?_⟩
    · rw [show (p :: rest).foldl TLBSet.insert s =
        rest.foldl TLBSet.insert (s.insert p) from rfl, hw, hins]
      simp
    · rw [show (p :: rest).foldl TLBSet.insert s =
        rest.foldl TLBSet.insert (s.insert p) from rfl, hc, hinsc]

theorem lru_evicts_oldest :
    ∀ (k : Nat) (p : PageAccess) (rest : List PageAccess),
      1 ≤ k → rest.length = k →
      (((p :: rest).map fun x => x.page).Nodup) →
      ((p :: rest).foldl TLBSet.insert (TLBSet.new k)).lookup p = false ∧
      ∀ q ∈ rest, ((p :: rest).foldl TLBSet.insert (TLBSet.new k)).lookup q = true := by
  intro k p rest hk hlen hnd
  rcases List.eq_nil_or_concat rest with hnil | ⟨init, last, hsplit⟩
  · rw [hnil] at hlen
    simp at hlen
    omega
  rw [List.concat_eq_append] at hsplit
  subst hsplit
  have hinit : init.length + 1 = k := by
    simpa using hlen
  rw [List.map_cons, List.nodup_cons, List.map_append] at hnd
  obtain ⟨hpnot, hnd2⟩ := hnd
  rw [List.nodup_append] at hnd2
  obtain ⟨hndinit, _, hdisj⟩ := hnd2
  have hplast : p.page ≠ last.page := by
    intro hcontra
    exact hpnot (by simp [hcontra])
  have hpinit : p.page ∉ init.map fun x => x.page := by
    intro hcontra
    exact hpnot (by simp [hcontra])
  have hN1 : (((p :: init).map fun x => x.page).Nodup) := by
    rw [List.map_cons, List.nodup_cons]
    exact ⟨hpinit, hndinit⟩
  obtain ⟨hw1, hc1⟩ := foldl_insert_fresh (p :: init) (TLBSet.new k) hN1
    (fun q _ e he => absurd he (by simp [TLBSet.new]))
    (by simp [TLBSet.new]; omega)
  have hfold : (p :: (init ++ [last])).foldl TLBSet.insert (TLBSet.new k) =
      ((p :: init).foldl TLBSet.insert (TLBSet.new k)).insert last := by
    rw [show (p :: (init ++ [last])) = (p :: init) ++ [last] from rfl,
      List.foldl_append]
    rfl
  have hfreshlast : ∀ e ∈ ((p :: init).foldl TLBSet.insert (TLBSet.new k)).ways,
      e.page.page ≠ last.page := by
    intro e he
    rw [hw1] at he
    simp only [TLBSet.new, List.nil_append] at he
    rcases List.mem_map.mp he with ⟨x, hx, hex⟩
    rw [← hex]
    rcases List.mem_cons.mp hx with hx1 | hx1
    · rw [hx1]
      exact hplast
    · intro hcontra
      exact hdisj (List.mem_map_of_mem _ hx1) (by simpa using hcontra)
  have hfull : ((p :: init).foldl TLBSet.insert (TLBSet.new k)).ways.length =
      ((p :: init).foldl TLBSet.insert (TLBSet.new k)).capacity := by
    rw [hw1, hc1]
    simp [TLBSet.new]
    omega
  obtain ⟨hw2, _⟩ := insert_fresh_full hfreshlast hfull
  have hways2 : ((p :: (init ++ [last])).foldl TLBSet.insert (TLBSet.new k)).ways =
      (init.map fun x => ({ page := x, valid := true } : TLBEntry)) ++
        [{ page := last, valid := true }] := by
    rw [hfold, hw2, hw1]
    simp [TLBSet.new]
  constructor
  · apply lookup_of_pages_ne
    rw [hways2]
    intro e he
    rcases List.mem_append.mp he with h1 | h1
    · rcases List.mem_map.mp h1 with ⟨x, hx, hex⟩
      rw [← hex]
      intro hcontra
      exact hpinit (by rw [← hcontra]; exact List.mem_map_of_mem _ hx)
    · have he2 : e = ({ page := last, valid := true } : TLBEntry) := by
        simpa using h1
      rw [he2]
      intro hcontra
      exact hplast hcontra.symm
  · intro q hq
    apply lookup_of_entry_mem
    rw [hways2]
    rcases List.mem_append.mp hq with h1 | h1
    · exact List.mem_append.mpr (Or.inl (List.mem_map_of_mem _ h1))
    · have : q = last := by simpa using h1
      rw [this]
      exact List.mem_append.mpr (Or.inr (by simp))

theorem lru_promote :
    ∀ (k : Nat) (p r : PageAccess) (rest2 : List PageAccess) (q : PageAccess),
      (p :: r :: rest2).length = k →
      ((((p :: r :: rest2) ++ [q]).map fun x => x.page).Nodup) →
      (((p :: r :: rest2).foldl TLBSet.insert (TLBSet.new k)).insert p).ways =
        ((r :: rest2).map fun x => ({ page := x, valid := true } : TLBEntry)) ++
          [{ page := p, valid := true }] ∧
      ((((p :: r :: rest2).foldl TLBSet.insert
          (TLBSet.new k)).insert p).insert q).lookup r = false ∧
      ((((p :: r :: rest2).foldl TLBSet.insert
          (TLBSet.new k)).insert p).insert q).lookup p = true ∧
      ((((p :: r :: rest2).foldl TLBSet.insert
          (TLBSet.new k)).insert p).insert q).lookup q = true ∧
      ∀ x ∈ rest2,
        ((((p :: r :: rest2).foldl TLBSet.insert
            (TLBSet.new k)).insert p).insert q).lookup x = true := by
  intro k p r rest2 q hlen hnd
  have hnd0 : (((p :: r :: rest2).map fun x => x.page).Nodup) := by
    have hsub : (p :: r :: rest2).Sublist ((p :: r :: rest2) ++ [q]) :=
      List.sublist_append_left _ _
    exact (hsub.map _).nodup hnd
  have hqdisj : ∀ x ∈ (p :: r :: rest2), x.page ≠ q.page := by
    rw [List.map_append, List.nodup_append] at hnd
    intro x hx hcontra
    exact hnd.2.2 (List.mem_map_of_mem _ hx) (by simp [hcontra])
  have hpnot : p.page ∉ (r :: rest2).map fun x => x.page := by
    rw [List.map_cons, List.nodup_cons] at hnd0
    exact hnd0.1
  have hrnot : r.page ∉ rest2.map fun x => x.page := by
    rw [List.map_cons, List.nodup_cons] at hnd0
    have := hnd0.2
    rw [List.map_cons, List.nodup_cons] at this
    exact this.1
  have hlen2 : rest2.length + 2 = k := by simpa using hlen
  obtain ⟨hw0, hc0⟩ := foldl_insert_fresh (p :: r :: rest2) (TLBSet.new k) hnd0
    (fun x _ e he => absurd he (by simp [TLBSet.new]))
    (by simp [TLBSet.new]; omega)
  have hw0b : ((p :: r :: rest2).foldl TLBSet.insert (TLBSet.new k)).ways =
      { page := p, valid := true } ::
        ((r :: rest2).map fun x => ({ page := x, valid := true } : TLBEntry)) := by
    rw [hw0]
    simp [TLBSet.new]
  obtain ⟨hw1, hc1⟩ := insert_promote_head hw0b
  have hfreshq : ∀ e ∈ (((p :: r :: rest2).foldl TLBSet.insert
      (TLBSet.new k)).insert p).ways, e.page.page ≠ q.page := by
    intro e he
    rw [hw1] at he
    rcases List.mem_append.mp he with h1 | h1
    · rcases List.mem_map.mp h1 with ⟨x, hx, hex⟩
      rw [← hex]
      exact hqdisj x (List.mem_cons_of_mem _ hx)
    · have he2 : e = ({ page := p, valid := true } : TLBEntry) := by simpa using h1
      rw [he2]
      exact hqdisj p (by simp)
  have hcap1 : (((p :: r :: rest2).foldl TLBSet.insert
      (TLBSet.new k)).insert p).capacity = k := by
    rw [hc1, hc0]
    rfl
  have hfullq : (((p :: r :: rest2).foldl TLBSet.insert
      (TLBSet.new k)).insert p).ways.length =
      (((p :: r :: rest2).foldl TLBSet.insert (TLBSet.new k)).insert p).capacity := by
    rw [hw1, hcap1]
    simp only [List.length_append, List.length_map, List.length_cons,
      List.length_nil]
    omega
  obtain ⟨hw2, _⟩ := insert_fresh_full hfreshq hfullq
  have hways2 : ((((p :: r :: rest2).foldl TLBSet.insert
      (TLBSet.new k)).insert p).insert q).ways =
      (rest2.map fun x => ({ page := x, valid := true } : TLBEntry)) ++
        [{ page := p, valid := true }] ++ [{ page := q, valid := true }] := by
    rw [hw2, hw1]
    simp
  refine ⟨hw1, ?_, ?_, ?_, ?_⟩
  · apply lookup_of_pages_ne
    rw [hways2]
    intro e he
    rcases List.mem_append.mp he with h1 | h1
    · rcases List.mem_append.mp h1 with h2 | h2
      · rcases List.mem_map.mp h2 with ⟨x, hx, hex⟩
        rw [← hex]
        intro hcontra
        exact hrnot (by rw [← hcontra]; exact List.mem_map_of_mem _ hx)
      · have he2 : e = ({ page := p, valid := true } : TLBEntry) := by simpa using h2
        rw [he2]
        intro hcontra
        have hc2 : p.page = r.page := hcontra
        exact hpnot (by simp [hc2])
    · have he2 : e = ({ page := q, valid := true } : TLBEntry) := by simpa using h1
      rw [he2]
      intro hcontra
      exact hqdisj r (by simp) hcontra.symm
  · exact lookup_of_entry_mem (by rw [hways2]; simp)
  · exact lookup_of_entry_mem (by rw [hways2]; simp)
  · intro x hx
    exact lookup_of_entry_mem (by
      rw [hways2]
      exact List.mem_append.mpr (Or.inl (List.mem_append.mpr (Or.inl
        (List.mem_map_of_mem _ hx)))))

/-- The S4 hardware TLB: 2 sets of 2 ways. -/
def s4tlb : HardwareTLB := .SetAssociative [TLBSet.new 2, TLBSet.new 2] 2 2

/-- A read access to page n. -/
def s4pa (n : Nat) : PageAccess :=
  { read := true, write := false, execute := false, page := n }

/-- Claim C6: (i) filling a k-way set with k+1 pages of distinct indices
evicts the first inserted page and keeps the rest; (ii) re-inserting the
oldest entry of a full set promotes it to MRU, and a further fresh insert
evicts the next oldest entry, not the promoted one; (iii) scenario S4: with
2 sets of 2 ways, inserting pages 0, 2, 4 (all set 0) makes page 0 miss
while pages 2 and 4 hit. -/
theorem set_lru_behaviour :
    (∀ (k : Nat) (p : PageAccess) (rest : List PageAccess),
      1 ≤ k → rest.length = k →
      (((p :: rest).map fun x => x.page).Nodup) →
      ((p :: rest).foldl TLBSet.insert (TLBSet.new k)).lookup p = false ∧
      ∀ q ∈ rest,
        ((p :: rest).foldl TLBSet.insert (TLBSet.new k)).lookup q = true) ∧
    (∀ (k : Nat) (p r : PageAccess) (rest2 : List PageAccess) (q : PageAccess),
      (p :: r :: rest2).length = k →
      ((((p :: r :: rest2) ++ [q]).map fun x => x.page).Nodup) →
      (((p :: r :: rest2).foldl TLBSet.insert (TLBSet.new k)).insert p).ways =
        ((r :: rest2).map fun x => ({ page := x, valid := true } : TLBEntry)) ++
          [{ page := p, valid := true }] ∧
      ((((p :: r :: rest2).foldl TLBSet.insert
          (TLBSet.new k)).insert p).insert q).lookup r = false ∧
      ((((p :: r :: rest2).foldl TLBSet.insert
          (TLBSet.new k)).insert p).insert q).lookup p = true ∧
      ((((p :: r :: rest2).foldl TLBSet.insert
          (TLBSet.new k)).insert p).insert q).lookup q = true ∧
      ∀ x ∈ rest2,
        ((((p :: r :: rest2).foldl TLBSet.insert
            (TLBSet.new k)).insert p).insert q).lookup x = true) ∧
    ((s4tlb.update [s4pa 0, s4pa 2, s4pa 4]).test (s4pa 0) = false ∧
     (s4tlb.update [s4pa 0, s4pa 2, s4pa 4]).test (s4pa 2) = true ∧
     (s4tlb.update [s4pa 0, s4pa 2, s4pa 4]).test (s4pa 4) = true) :=
  ⟨lru_evicts_oldest, lru_promote, by decide⟩

/-- The S4-style fill of one 2-way set with pages 0, 2, 4. -/
def c6fill : TLBSet :=
  ([s4pa 0, s4pa 2, s4pa 4] : List PageAccess).foldl TLBSet.insert (TLBSet.new 2)

/-- A full 3-way set 0,1,2 with page 0 re-inserted (promoted). -/
def c6s1 : TLBSet :=
  (([s4pa 0, s4pa 1, s4pa 2] : List PageAccess).foldl TLBSet.insert
    (TLBSet.new 3)).insert (s4pa 0)

/-- c6s1 after a further fresh insert of page 3. -/
def c6s2 : TLBSet := c6s1.insert (s4pa 3)

/-- Witness for claim C6: the eviction law at k = 2 on pages 0, 2, 4 and the
promotion law at k = 3 on pages 0, 1, 2 with fresh page 3. -/
theorem set_lru_behaviour_witness :
    (c6fill.lookup (s4pa 0) = false ∧
      ∀ q ∈ [s4pa 2, s4pa 4], c6fill.lookup q = true) ∧
    (c6s1.ways =
        (([s4pa 1, s4pa 2] : List PageAccess).map
          fun x => ({ page := x, valid := true } : TLBEntry)) ++
          [{ page := s4pa 0, valid := true }] ∧
      c6s2.lookup (s4pa 1) = false ∧
      c6s2.lookup (s4pa 0) = true ∧
      c6s2.lookup (s4pa 3) = true ∧
      ∀ x ∈ [s4pa 2], c6s2.lookup x = true) :=
  ⟨set_lru_behaviour.1 2 (s4pa 0) [s4pa 2, s4pa 4] (by decide) (by decide)
      (by decide),
   set_lru_behaviour.2.1 3 (s4pa 0) (s4pa 1) [s4pa 2] (s4pa 3) (by decide)
      (by decide)⟩

/-! ## Claim C9: VCD dumper -/

theorem risePass_spec :
    ∀ (items : List Nat) (s s2 : List Bool) (cmds : List VCDCmd),
      risePass s items = some (s2, cmds) →
      s2.length = s.length ∧
      (∀ item ∈ items, item < s.length) ∧
      (∀ i, s2.getD i false = (s.getD i false || items.contains i)) ∧
      (∀ i b, VCDCmd.change i b ∈ cmds ↔
        b = true ∧ i ∈ items ∧ s.getD i false = false) := by
  intro items
  induction items with
  | nil =>
    intro s s2 cmds h
    simp only [risePass] at h
    injection h with h2
    injection h2 with hs hc
    subst hs
    subst hc
    refine ⟨rfl, by simp, by simp, by simp⟩
  | cons item rest ih =>
    intro s s2 cmds h
    simp only [risePass] at h
    cases hcur : s[item]? with
    | none =>
      rw [hcur] at h
      exact absurd h (by simp)
    | some cur =>
      rw [hcur] at h
      simp only [Option.bind_eq_bind, Option.some_bind] at h
      have hlt : item < s.length := by
        rcases List.getElem?_eq_some.mp hcur with ⟨h1, _⟩
        exact h1
      have hDitem : s.getD item false = cur := by
        rw [List.getD_eq_getElem?_getD, hcur]
        rfl
      cases cur with
      | true =>
        rw [if_pos rfl] at h
        obtain ⟨ih1, ih2, ih3, ih4⟩ := ih s s2 cmds h
        refine ⟨ih1, ?_, ?_, ?_⟩
        · intro x hx
          rcases List.mem_cons.mp hx with h1 | h1
          · rw [h1]; exact hlt
          · exact ih2 x h1
        · intro i
          rw [ih3 i, List.contains_cons]
          by_cases hi : i = item
          · subst hi
            rw [hDitem]
            simp
          · have hne : (i == item) = false := by simp [hi]
            rw [hne]
            simp
        · intro i b
          rw [ih4 i b]
          constructor
          · rintro ⟨hb, hmem, hD⟩
            exact ⟨hb, List.mem_cons_of_mem _ hmem, hD⟩
          · rintro ⟨hb, hmem, hD⟩
            rcases List.mem_cons.mp hmem with h1 | h1
            · rw [h1, hDitem] at hD
              exact absurd hD (by simp)
            · exact ⟨hb, h1, hD⟩
      | false =>
        rw [if_neg (by simp)] at h
        rcases hrec : risePass (s.set item true) rest with _ | ⟨s1, c1⟩
        · rw [hrec] at h
          exact absurd h (by simp)
        · rw [hrec] at h
          simp only [Option.bind_eq_bind, Option.some_bind] at h
          injection h with h2
          injection h2 with hs hc
          obtain ⟨ih1, ih2, ih3, ih4⟩ := ih (s.set item true) s1 c1 hrec
          have hsetD : (s.set item true).getD item false = true := by
            rw [List.getD_eq_getElem?_getD, List.getElem?_set_self hlt]
            rfl
          have hsetDne : ∀ i, i ≠ item →
              (s.set item true).getD i false = s.getD i false := by
            intro i hi
            rw [List.getD_eq_getElem?_getD,
              List.getElem?_set_ne (fun hcontra => hi hcontra.symm),
              ← List.getD_eq_getElem?_getD]
          refine ⟨?_, ?_, ?_, ?_⟩
          · rw [← hs, ih1, List.length_set]
          · intro x hx
            rcases List.mem_cons.mp hx with h1 | h1
            · rw [h1]; exact hlt
            · have := ih2 x h1
              rwa [List.length_set] at this
          · intro i
            rw [← hs, ih3 i, List.contains_cons]
            by_cases hi : i = item
            · subst hi
              rw [hsetD, hDitem]
              simp
            · have hne : (i == item) = false := by simp [hi]
              rw [hne, hsetDne i hi]
              simp
          · intro i b
            rw [← hc, List.mem_cons]
            constructor
            · intro hmem
              rcases hmem with h1 | h1
              · rw [VCDCmd.change.injEq] at h1
                exact ⟨h1.2, by rw [h1.1]; simp, by rw [h1.1]; exact hDitem⟩
              · obtain ⟨hb, hmem2, hD⟩ := (ih4 i b).mp h1
                by_cases hi : i = item
                · rw [hi, hsetD] at hD
                  exact absurd hD (by simp)
                · exact ⟨hb, List.mem_cons_of_mem _ hmem2,
                    by rw [← hsetDne i hi]; exact hD⟩
            · rintro ⟨hb, hmem, hD⟩
              by_cases hi : i = item
              · left
                rw [hb, hi]
              · right
                refine (ih4 i b).mpr ⟨hb, ?_, by rw [hsetDne i hi]; exact hD⟩
                rcases List.mem_cons.mp hmem with h1 | h1
                · exact absurd h1 hi
                · exact h1

theorem fallPass_spec :
    ∀ (s : List Bool) (items : List Nat) (ofs : Nat),
      (fallPass items s ofs).1.length = s.length ∧
      (∀ j, (fallPass items s ofs).1.getD j false =
        (s.getD j false && items.contains (ofs + j))) ∧
      (∀ i b, VCDCmd.change i b ∈ (fallPass items s ofs).2 ↔
        (b = false ∧ ∃ j, i = ofs + j ∧ s.getD j false = true ∧
          items.contains (ofs + j) = false)) := by
  intro s
  induction s with
  | nil =>
    intro items ofs
    refine ⟨rfl, by intro j; simp [fallPass], by intro i b; simp [fallPass]⟩
  | cons bb rest ih =>
    intro items ofs
    obtain ⟨ih1, ih2, ih3⟩ := ih items (ofs + 1)
    by_cases hcond : (bb && !items.contains ofs) = true
    · obtain ⟨hbb, hcont⟩ : bb = true ∧ items.contains ofs = false := by
        rcases Bool.and_eq_true_iff.mp hcond with ⟨h1, h2⟩
        exact ⟨h1, by simpa using h2⟩
      have hfp : fallPass items (bb :: rest) ofs =
          (false :: (fallPass items rest (ofs + 1)).1,
           VCDCmd.change ofs false :: (fallPass items rest (ofs + 1)).2) := by
        rw [fallPass, if_pos hcond]
      rw [hfp]
      refine ⟨by simpa using ih1, ?_, ?_⟩
      · intro j
        cases j with
        | zero =>
          rw [List.getD_cons_zero, List.getD_cons_zero, hbb]
          rw [show ofs + 0 = ofs from rfl, hcont]
          simp
        | succ j =>
          rw [List.getD_cons_succ, List.getD_cons_succ, ih2 j,
            show ofs + (j + 1) = ofs + 1 + j from by omega]
      · intro i b
        rw [List.mem_cons]
        constructor
        · intro hmem
          rcases hmem with h1 | h1
          · rw [VCDCmd.change.injEq] at h1
            refine ⟨h1.2, 0, by omega, ?_, ?_⟩
            · rw [List.getD_cons_zero, hbb]
            · rw [show ofs + 0 = ofs from rfl, hcont]
          · obtain ⟨hb, j, hij, hgd, hcnt⟩ := (ih3 i b).mp h1
            refine ⟨hb, j + 1, by omega, ?_, ?_⟩
            · rw [List.getD_cons_succ]; exact hgd
            · rw [show ofs + (j + 1) = ofs + 1 + j from by omega]; exact hcnt
        · rintro ⟨hb, j, hij, hgd, hcnt⟩
          cases j with
          | zero =>
            left
            rw [hb, hij]
            rw [show ofs + 0 = ofs from rfl]
          | succ j =>
            right
            refine (ih3 i b).mpr ⟨hb, j, by omega, ?_, ?_⟩
            · rw [List.getD_cons_succ] at hgd; exact hgd
            · rw [show ofs + 1 + j = ofs + (j + 1) from by omega]; exact hcnt
    · have hcond2 := hcond
      rw [Bool.and_eq_true_iff] at hcond2
      have hfp : fallPass items (bb :: rest) ofs =
          (bb :: (fallPass items rest (ofs + 1)).1,
           (fallPass items rest (ofs + 1)).2) := by
        rw [fallPass, if_neg hcond]
      rw [hfp]
      have hbc : (bb && items.contains ofs) = bb := by
        cases hbb : bb
        · simp
        · cases hct : items.contains ofs
          · exfalso
            apply hcond
            rw [hbb, hct]
            rfl
          · simp
      refine ⟨by simpa using ih1, ?_, ?_⟩
      · intro j
        cases j with
        | zero =>
          rw [List.getD_cons_zero, List.getD_cons_zero,
            show ofs + 0 = ofs from rfl, hbc]
        | succ j =>
          rw [List.getD_cons_succ, List.getD_cons_succ, ih2 j,
            show ofs + (j + 1) = ofs + 1 + j from by omega]
      · intro i b
        constructor
        · intro hmem
          obtain ⟨hb, j, hij, hgd, hcnt⟩ := (ih3 i b).mp hmem
          refine ⟨hb, j + 1, by omega, ?_, ?_⟩
          · rw [List.getD_cons_succ]; exact hgd
          · rw [show ofs + (j + 1) = ofs + 1 + j from by omega]; exact hcnt
        · rintro ⟨hb, j, hij, hgd, hcnt⟩
          cases j with
          | zero =>
            rw [List.getD_cons_zero] at hgd
            rw [show ofs + 0 = ofs from rfl] at hcnt
            exfalso
            apply hcond
            rw [hgd, hcnt]
            rfl
          | succ j =>
            refine (ih3 i b).mpr ⟨hb, j, by omega, ?_, ?_⟩
            · rw [List.getD_cons_succ] at hgd; exact hgd
            · rw [show ofs + 1 + j = ofs + (j + 1) from by omega]; exact hcnt

/-- Claim C9: a successful next_step bumps the timestamp by exactly one and
appends, after the optional erip record, the scalar changes of this step
followed by the new timestamp; the new wire state records exactly the pages
written with read permission; and a scalar change for a wire is emitted iff
the wire value changed relative to the previous step. -/
theorem vcd_next_step_spec :
    ∀ (d : VCDDumper) (er : Option Nat) (accesses : List PageAccess)
      (d2 : VCDDumper),
      d.next_step er accesses = some d2 →
      d2.ts = d.ts + 1 ∧
      ∃ cmds,
        VCDStatefulSet.update_state d.state (readPages accesses) =
          some (d2.state, cmds) ∧
        d2.emitted = d.emitted ++ eripCmds er ++ cmds ++
          [VCDCmd.stamp (d.ts + 1)] ∧
        (∀ i, d2.state.getD i false = (readPages accesses).contains i) ∧
        (∀ i, i < d.state.length →
          ((∃ b, VCDCmd.change i b ∈ cmds) ↔
            d2.state.getD i false ≠ d.state.getD i false)) := by
  intro d er accesses d2 h
  unfold VCDDumper.next_step at h
  cases hup : VCDStatefulSet.update_state d.state (readPages accesses) with
  | none =>
    rw [hup] at h
    exact absurd h (by simp)
  | some sr =>
    rcases sr with ⟨s2, cmds⟩
    rw [hup] at h
    simp only [Option.bind_eq_bind, Option.some_bind] at h
    injection h with h2
    rw [← h2]
    have hup2 := hup
    unfold VCDStatefulSet.update_state at hup2
    cases hrise : risePass d.state (readPages accesses) with
    | none =>
      rw [hrise] at hup2
      exact absurd hup2 (by simp)
    | some rp =>
      rcases rp with ⟨s1, rises⟩
      rw [hrise] at hup2
      simp only [Option.bind_eq_bind, Option.some_bind] at hup2
      injection hup2 with hup3
      injection hup3 with hs hcmds
      obtain ⟨hR1, hR2, hR3, hR4⟩ :=
        risePass_spec (readPages accesses) d.state s1 rises hrise
      obtain ⟨hF1, hF2, hF3⟩ := fallPass_spec s1 (readPages accesses) 0
      have hnew : ∀ i, s2.getD i false = (readPages accesses).contains i := by
        intro i
        rw [← hs, hF2 i, hR3 i]
        rw [show (0 : Nat) + i = i from by omega]
        cases hc : (readPages accesses).contains i <;>
          cases hd : d.state.getD i false <;> simp
      refine ⟨rfl, cmds, rfl, rfl, hnew, ?_⟩
      intro i hilt
      rw [hnew i]
      rw [← hcmds]
      constructor
      · rintro ⟨b, hmem⟩
        rcases List.mem_append.mp hmem with hm | hm
        · obtain ⟨hb, hmemi, hD⟩ := (hR4 i b).mp hm
          rw [hD]
          have : (readPages accesses).contains i = true :=
            List.elem_iff.mpr hmemi
          rw [this]
          simp
        · obtain ⟨hb, j, hij, hgd, hcnt⟩ := (hF3 i b).mp hm
          have hji : j = i := by omega
          rw [hji] at hgd hcnt
          rw [show (0 : Nat) + i = i from by omega] at hcnt
          rw [hcnt]
          rw [hR3 i] at hgd
          rw [hcnt] at hgd
          simp only [Bool.or_false] at hgd
          rw [hgd]
          simp
      · intro hne
        cases hc : (readPages accesses).contains i with
        | true =>
          have hd : d.state.getD i false = false := by
            rw [hc] at hne
            cases hd2 : d.state.getD i false
            · rfl
            · rw [hd2] at hne
              exact absurd rfl hne
          refine ⟨true, List.mem_append.mpr (Or.inl ?_)⟩
          exact (hR4 i true).mpr ⟨rfl, List.elem_iff.mp hc, hd⟩
        | false =>
          have hd : d.state.getD i false = true := by
            rw [hc] at hne
            cases hd2 : d.state.getD i false
            · rw [hd2] at hne
              exact absurd rfl hne
            · rfl
          refine ⟨false, List.mem_append.mpr (Or.inr ?_)⟩
          refine (hF3 i false).mpr ⟨rfl, i, by omega, ?_, ?_⟩
          · rw [hR3 i, hd]
            simp
          · rw [show (0 : Nat) + i = i from by omega]
            exact hc

def c9d : VCDDumper := { state := [true, false], ts := 5, emitted := [] }

def c9acc : PageAccess :=
  { read := true, write := false, execute := false, page := 1 }

def c9d2 : VCDDumper :=
  { state := [false, true], ts := 6
    emitted := [VCDCmd.change 1 true, VCDCmd.change 0 false, VCDCmd.stamp 6] }

/-- Witness for claim C9: one step on a two-wire dumper that raises wire 1
and lowers wire 0. -/
theorem vcd_next_step_spec_witness :
    c9d2.ts = c9d.ts + 1 ∧
    ∃ cmds,
      VCDStatefulSet.update_state c9d.state (readPages [c9acc]) =
        some (c9d2.state, cmds) ∧
      c9d2.emitted = c9d.emitted ++ eripCmds none ++ cmds ++
        [VCDCmd.stamp (c9d.ts + 1)] ∧
      (∀ i, c9d2.state.getD i false = (readPages [c9acc]).contains i) ∧
      (∀ i, i < c9d.state.length →
        ((∃ b, VCDCmd.change i b ∈ cmds) ↔
          c9d2.state.getD i false ≠ c9d.state.getD i false)) :=
  vcd_next_step_spec c9d none [c9acc] c9d2 (by decide)

/-! ## Claim C10: DataCount payload invariant and min/max tracking -/

/-- Every DataCount payload reachable by the machine lies in [1, usize::MAX]. -/
def JpegState.goodPayload : JpegState → Bool
  | .DataCount n => decide (1 ≤ n ∧ n ≤ usizeMAX)
  | _ => true

theorem next_states_good :
    ∀ (s : JpegState) (l : List JpegState),
      s.next_states = some l → ∀ t ∈ l, t.goodPayload = true := by
  intro s l h t ht
  cases s <;> simp only [JpegState.next_states] at h
  case DataCount x =>
    split at h
    case isTrue hx =>
      injection h with h2
      rw [← h2] at ht
      simp at ht
      rcases ht with rfl | rfl | rfl
      · rw [JpegState.goodPayload, decide_eq_true_iff]
        exact ⟨by omega, hx⟩
      · rfl
      · rfl
    case isFalse => exact absurd h (by simp)
  all_goals injection h with h2
  all_goals rw [← h2] at ht
  all_goals simp at ht
  all_goals rcases ht with rfl | rfl <;> rfl

theorem next_goodPayload :
    ∀ (s : JpegState) (page : Nat) (aex : Bool) (s2 : JpegState),
      s.goodPayload = true → s.next page aex = some s2 →
      s2.goodPayload = true := by
  intro s page aex s2 hgood h
  rw [JpegState.next] at h
  cases hns : s.next_states with
  | none =>
    rw [hns] at h
    exact absurd h (by simp)
  | some l =>
    rw [hns, Option.map_some'] at h
    injection h with h2
    rw [← h2]
    cases hfind : l.find? fun t => rangeContains (t.pages aex) page with
    | none => simpa using hgood
    | some t =>
      simp only [Option.getD_some]
      exact next_states_good s l hns t (List.mem_of_find?_eq_some hfind)

theorem replayFrom_cons {aex : Bool} {s : JpegState} {r : JpegReconstruct}
    {page : Nat} {rest : List Nat} {out : JpegState × JpegReconstruct} :
    replayFrom aex s r (page :: rest) = some out ↔
    ∃ s2 r2, s.next page aex = some s2 ∧ r.reconstruct s s2 = some r2 ∧
      replayFrom aex s2 r2 rest = some out := by
  constructor
  · intro h
    rw [replayFrom] at h
    cases hn : s.next page aex with
    | none =>
      rw [hn] at h
      exact absurd h (by simp)
    | some s2 =>
      rw [hn] at h
      dsimp only at h
      cases hr : r.reconstruct s s2 with
      | none =>
        rw [hr] at h
        exact absurd h (by simp)
      | some r2 =>
        rw [hr] at h
        exact ⟨s2, r2, rfl, hr, h⟩
  · rintro ⟨s2, r2, hn, hr, h⟩
    rw [replayFrom, hn]
    dsimp only
    rw [hr]
    exact h

theorem replay_goodPayload :
    ∀ (ps : List Nat) (aex : Bool) (s : JpegState) (r : JpegReconstruct)
      (out : JpegState × JpegReconstruct),
      replayFrom aex s r ps = some out → s.goodPayload = true →
      out.1.goodPayload = true := by
  intro ps
  induction ps with
  | nil =>
    intro aex s r out h hgood
    rw [replayFrom] at h
    injection h with h2
    rw [← h2]
    exact hgood
  | cons page rest ih =>
    intro aex s r out h hgood
    obtain ⟨s2, r2, hn, hr, h2⟩ := replayFrom_cons.mp h
    exact ih aex s2 r2 out h2 (next_goodPayload s page aex s2 hgood hn)

theorem commitOf_good {s s2 : JpegState} (hgood : s.goodPayload = true) :
    ∀ c ∈ commitOf s s2, 1 ≤ c ∧ c ≤ usizeMAX := by
  intro c hc
  cases s
  case DataCount n =>
    rw [commitOf] at hc
    split at hc
    · exact absurd hc (by simp)
    · have hcn : c = n := by simpa using hc
      rw [JpegState.goodPayload, decide_eq_true_iff] at hgood
      rw [hcn]
      exact hgood
  all_goals simp [commitOf] at hc

theorem commits_good :
    ∀ (ps : List Nat) (aex : Bool) (s : JpegState) (r : JpegReconstruct)
      (out : JpegState × JpegReconstruct),
      replayFrom aex s r ps = some out → s.goodPayload = true →
      ∀ c ∈ commitsFrom aex s ps, 1 ≤ c ∧ c ≤ usizeMAX := by
  intro ps
  induction ps with
  | nil =>
    intro aex s r out _ _ c hc
    simp [commitsFrom] at hc
  | cons page rest ih =>
    intro aex s r out h hgood c hc
    obtain ⟨s2, r2, hn, hr, h2⟩ := replayFrom_cons.mp h
    rw [commitsFrom, hn] at hc
    rcases List.mem_append.mp hc with h1 | h1
    · exact commitOf_good hgood c h1
    · exact ih aex s2 r2 out h2 (next_goodPayload s page aex s2 hgood hn) c h1

theorem reconstruct_block_minmax {r : JpegReconstruct} {n : Nat}
    {r2 : JpegReconstruct} (h : r.reconstruct_block n = some r2) :
    r2.min_data = Nat.min r.min_data n ∧
    r2.max_data = Nat.max r.max_data n := by
  unfold JpegReconstruct.reconstruct_block at h
  cases h1 : r.reconstructed_buffer[r.current_color]? with
  | none =>
    rw [h1] at h
    exact absurd h (by simp)
  | some colorRows =>
    rw [h1] at h
    simp only [Option.bind_eq_bind, Option.some_bind] at h
    cases h2 : colorRows[r.current_row]? with
    | none =>
      rw [h2] at h
      exact absurd h (by simp)
    | some row =>
      rw [h2] at h
      simp only [Option.bind_eq_bind, Option.some_bind] at h
      split at h
      · exact absurd h (by simp)
      · injection h with h3
        rw [← h3]
        exact ⟨rfl, rfl⟩

theorem next_row_minmax {r r2 : JpegReconstruct} (h : r.next_row = some r2) :
    r2.min_data = r.min_data ∧ r2.max_data = r.max_data := by
  unfold JpegReconstruct.next_row at h
  split at h
  · injection h with h2
    rw [← h2]
    exact ⟨rfl, rfl⟩
  · exact absurd h (by simp)

theorem reconstruct_minmax {r : JpegReconstruct} {s s2 : JpegState}
    {r2 : JpegReconstruct} (h : r.reconstruct s s2 = some r2) :
    r2.min_data = (commitOf s s2).foldl Nat.min r.min_data ∧
    r2.max_data = (commitOf s s2).foldl Nat.max r.max_data := by
  unfold JpegReconstruct.reconstruct at h
  cases s
  case DataCount n =>
    rw [commitOf]
    simp only [Option.bind_eq_bind] at h
    cases hdc : s2.isDataCount with
    | true =>
      rw [if_pos hdc, Option.some_bind, if_neg (by simp)] at h
      injection h with h2
      rw [← h2]
      exact ⟨rfl, rfl⟩
    | false =>
      rw [if_neg (by simp [hdc])] at h
      cases hb : r.reconstruct_block n with
      | none =>
        rw [hb] at h
        exact absurd h (by simp)
      | some r1 =>
        rw [hb, Option.some_bind, if_neg (by simp)] at h
        injection h with h2
        rw [← h2, if_neg (by simp [hdc])]
        simpa using reconstruct_block_minmax hb
  case NextRow =>
    simp only [Option.bind_eq_bind, Option.some_bind] at h
    rw [commitOf]
    by_cases hsr : s2 = JpegState.StartRow
    · rw [if_pos ⟨trivial, hsr⟩] at h
      simpa using next_row_minmax h
    · rw [if_neg (by simp [hsr])] at h
      injection h with h2
      rw [← h2]
      exact ⟨rfl, rfl⟩
    all_goals intro n hn
    all_goals cases hn
  all_goals
    simp only [Option.bind_eq_bind, Option.some_bind] at h
    rw [if_neg (by simp)] at h
    injection h with h2
    rw [← h2, commitOf]
    exact ⟨rfl, rfl⟩
  all_goals intro n hn
  all_goals cases hn

theorem replay_minmax :
    ∀ (ps : List Nat) (aex : Bool) (s : JpegState) (r : JpegReconstruct)
      (out : JpegState × JpegReconstruct),
      replayFrom aex s r ps = some out →
      out.2.min_data = (commitsFrom aex s ps).foldl Nat.min r.min_data ∧
      out.2.max_data = (commitsFrom aex s ps).foldl Nat.max r.max_data := by
  intro ps
  induction ps with
  | nil =>
    intro aex s r out h
    rw [replayFrom] at h
    injection h with h2
    rw [← h2, commitsFrom]
    exact ⟨rfl, rfl⟩
  | cons page rest ih =>
    intro aex s r out h
    obtain ⟨s2, r2, hn, hr, h2⟩ := replayFrom_cons.mp h
    obtain ⟨ihmin, ihmax⟩ := ih aex s2 r2 out h2
    obtain ⟨hbmin, hbmax⟩ := reconstruct_minmax hr
    rw [commitsFrom, hn]
    constructor
    · rw [List.foldl_append, ← hbmin]
      exact ihmin
    · rw [List.foldl_append, ← hbmax]
      exact ihmax

theorem foldl_min_spec :
    ∀ (cs : List Nat) (B : Nat),
      cs.foldl Nat.min B ≤ B ∧ (∀ c ∈ cs, cs.foldl Nat.min B ≤ c) ∧
      (cs.foldl Nat.min B = B ∨ cs.foldl Nat.min B ∈ cs) := by
  intro cs
  induction cs with
  | nil => exact fun B => ⟨Nat.le_refl B, by simp, Or.inl rfl⟩
  | cons c rest ih =>
    intro B
    simp only [List.foldl_cons]
    obtain ⟨ih1, ih2, ih3⟩ := ih (Nat.min B c)
    have hminBc : Nat.min B c = B ∨ Nat.min B c = c := by
      rcases Nat.le_total B c with h | h
      · exact Or.inl (Nat.min_eq_left h)
      · exact Or.inr (Nat.min_eq_right h)
    refine ⟨?_, ?_, ?_⟩
    · exact Nat.le_trans ih1 (Nat.min_le_left B c)
    · intro x hx
      rcases List.mem_cons.mp hx with h1 | h1
      · rw [h1]
        exact Nat.le_trans ih1 (Nat.min_le_right B c)
      · exact ih2 x h1
    · rcases ih3 with h1 | h1
      · rcases hminBc with h2 | h2
        · exact Or.inl (h1.trans h2)
        · exact Or.inr (by rw [h1, h2]; exact List.mem_cons_self c rest)
      · exact Or.inr (List.mem_cons_of_mem c h1)

theorem foldl_max_spec :
    ∀ (cs : List Nat) (B : Nat),
      B ≤ cs.foldl Nat.max B ∧ (∀ c ∈ cs, c ≤ cs.foldl Nat.max B) ∧
      (cs.foldl Nat.max B = B ∨ cs.foldl Nat.max B ∈ cs) := by
  intro cs
  induction cs with
  | nil => exact fun B => ⟨Nat.le_refl B, by simp, Or.inl rfl⟩
  | cons c rest ih =>
    intro B
    simp only [List.foldl_cons]
    obtain ⟨ih1, ih2, ih3⟩ := ih (Nat.max B c)
    have hmaxBc : Nat.max B c = B ∨ Nat.max B c = c := by
      rcases Nat.le_total B c with h | h
      · exact Or.inr (Nat.max_eq_right h)
      · exact Or.inl (Nat.max_eq_left h)
    refine ⟨?_, ?_, ?_⟩
    · exact Nat.le_trans (Nat.le_max_left B c) ih1
    · intro x hx
      rcases List.mem_cons.mp hx with h1 | h1
      · rw [h1]
        exact Nat.le_trans (Nat.le_max_right B c) ih1
      · exact ih2 x h1
    · rcases ih3 with h1 | h1
      · rcases hmaxBc with h2 | h2
        · exact Or.inl (h1.trans h2)
        · exact Or.inr (by rw [h1, h2]; exact List.mem_cons_self c rest)
      · exact Or.inr (List.mem_cons_of_mem c h1)

/-- Claim C10: along every replay from PreStart, any reached DataCount state
has a payload of at least 1; every block count committed to
JpegReconstruct::reconstruct_block is at least 1; and once at least one
block is committed, min_data (initialized to usize::MAX) and max_data
(initialized to 1) are exactly the minimum and maximum of the committed
counts. -/
theorem datacount_invariant :
    ∀ (aex : Bool) (k : Nat) (ps : List Nat) (s2 : JpegState)
      (r2 : JpegReconstruct),
      replayFrom aex .PreStart (JpegReconstruct.new k) ps = some (s2, r2) →
      (∀ n, s2 = JpegState.DataCount n → 1 ≤ n) ∧
      (∀ c ∈ commitsFrom aex .PreStart ps, 1 ≤ c) ∧
      (commitsFrom aex .PreStart ps ≠ [] →
        (r2.min_data ∈ commitsFrom aex .PreStart ps ∧
          ∀ c ∈ commitsFrom aex .PreStart ps, r2.min_data ≤ c) ∧
        (r2.max_data ∈ commitsFrom aex .PreStart ps ∧
          ∀ c ∈ commitsFrom aex .PreStart ps, c ≤ r2.max_data)) := by
  intro aex k ps s2 r2 h
  have hgood : (JpegState.PreStart).goodPayload = true := rfl
  have hfinal := replay_goodPayload ps aex _ _ _ h hgood
  have hcg := commits_good ps aex _ _ _ h hgood
  have hmm := replay_minmax ps aex _ _ _ h
  refine ⟨?_, fun c hc => (hcg c hc).1, ?_⟩
  · intro n hn
    rw [hn] at hfinal
    rw [JpegState.goodPayload, decide_eq_true_iff] at hfinal
    exact hfinal.1
  · intro hne
    obtain ⟨c0, hc0⟩ := List.exists_mem_of_ne_nil _ hne
    obtain ⟨hminval, hmaxval⟩ := hmm
    simp only at hminval hmaxval
    obtain ⟨hmin1, hmin2, hmin3⟩ :=
      foldl_min_spec (commitsFrom aex .PreStart ps)
        (JpegReconstruct.new k).min_data
    obtain ⟨hmax1, hmax2, hmax3⟩ :=
      foldl_max_spec (commitsFrom aex .PreStart ps)
        (JpegReconstruct.new k).max_data
    constructor
    · constructor
      · rcases hmin3 with h1 | h1
        · have hc0max : c0 ≤ usizeMAX := (hcg c0 hc0).2
          have hfold_le : (commitsFrom aex .PreStart ps).foldl Nat.min
              (JpegReconstruct.new k).min_data ≤ c0 := hmin2 c0 hc0
          have hB : (JpegReconstruct.new k).min_data = usizeMAX := rfl
          rw [hB] at h1
          have hc0eq : c0 = usizeMAX := Nat.le_antisymm hc0max (by
            rw [← h1]
            exact hfold_le)
          rw [hminval, hB, h1, ← hc0eq]
          exact hc0
        · rw [hminval]
          exact h1
      · intro c hc
        rw [hminval]
        exact hmin2 c hc
    · constructor
      · rcases hmax3 with h1 | h1
        · have hc0min : 1 ≤ c0 := (hcg c0 hc0).1
          have hfold_ge : c0 ≤ (commitsFrom aex .PreStart ps).foldl Nat.max
              (JpegReconstruct.new k).max_data := hmax2 c0 hc0
          have hB : (JpegReconstruct.new k).max_data = 1 := rfl
          rw [hB] at h1
          have hc0eq : c0 = 1 := Nat.le_antisymm (by
            rw [← h1]
            exact hfold_ge) hc0min
          rw [hmaxval, hB, h1, ← hc0eq]
          exact hc0
        · rw [hmaxval]
          exact h1
      · intro c hc
        rw [hmaxval]
        exact hmax2 c hc

/-- Witness for claim C10: the trace [54, 58, 63, 150, 59] reaches
PreIdctSlow having committed exactly one block of count 1, with min_data
and max_data both 1. -/
theorem datacount_invariant_witness :
    (∀ n, JpegState.PreIdctSlow = JpegState.DataCount n → 1 ≤ n) ∧
    (∀ c ∈ commitsFrom false .PreStart [54, 58, 63, 150, 59], 1 ≤ c) ∧
    (commitsFrom false .PreStart [54, 58, 63, 150, 59] ≠ [] →
      (({ current_color := 0, num_colors := 1,
          reconstructed_buffer := [[[1]]], max_data := 1, min_data := 1,
          current_row := 0 } : JpegReconstruct).min_data ∈
            commitsFrom false .PreStart [54, 58, 63, 150, 59] ∧
        ∀ c ∈ commitsFrom false .PreStart [54, 58, 63, 150, 59],
          ({ current_color := 0, num_colors := 1,
             reconstructed_buffer := [[[1]]], max_data := 1, min_data := 1,
             current_row := 0 } : JpegReconstruct).min_data ≤ c) ∧
      (({ current_color := 0, num_colors := 1,
          reconstructed_buffer := [[[1]]], max_data := 1, min_data := 1,
          current_row := 0 } : JpegReconstruct).max_data ∈
            commitsFrom false .PreStart [54, 58, 63, 150, 59] ∧
        ∀ c ∈ commitsFrom false .PreStart [54, 58, 63, 150, 59],
          c ≤ ({ current_color := 0, num_colors := 1,
                 reconstructed_buffer := [[[1]]], max_data := 1, min_data := 1,
                 current_row := 0 } : JpegReconstruct).max_data)) :=
  datacount_invariant false 1 [54, 58, 63, 150, 59] .PreIdctSlow
    { current_color := 0, num_colors := 1, reconstructed_buffer := [[[1]]],
      max_data := 1, min_data := 1, current_row := 0 } (by decide)

/-- Witness for claim C8 at two accesses to page 7: read-only covers is
equivalent to the union form and to permission inclusion. -/
theorem page_access_algebra_witness :
    (({ read := true, write := false, execute := false, page := 7 } :
        PageAccess).covers
      (({ read := true, write := false, execute := false, page := 7 } :
          PageAccess).union
        { read := true, write := true, execute := false, page := 7 }) = true ↔
      (({ read := true, write := false, execute := false, page := 7 } :
          PageAccess).covers
        { read := true, write := true, execute := false, page := 7 }) = true) ∧
    ((({ read := true, write := false, execute := false, page := 7 } :
        PageAccess).covers
          { read := true, write := true, execute := false, page := 7 }) = true ↔
      ((({ read := true, write := true, execute := false, page := 7 } :
          PageAccess).read = true →
        ({ read := true, write := false, execute := false, page := 7 } :
          PageAccess).read = true) ∧
       (({ read := true, write := true, execute := false, page := 7 } :
          PageAccess).write = true →
        ({ read := true, write := false, execute := false, page := 7 } :
          PageAccess).write = true) ∧
       (({ read := true, write := true, execute := false, page := 7 } :
          PageAccess).execute = true →
        ({ read := true, write := false, execute := false, page := 7 } :
          PageAccess).execute = true))) :=
  page_access_algebra.1
    { read := true, write := false, execute := false, page := 7 }
    { read := true, write := true, execute := false, page := 7 } rfl
